import Mathlib

/-!
# UTags: key-value pairs stored in actor tags

A verification development for `Source/UTags/Public/TagStatics.h` (struct `FTagStatics`).

The header is written against the engine's string, name, array and map types.  The first
part of this file models the engine routines the header calls and embeds the functions of
`FTagStatics` line by line; the second part fixes the notions the properties are stated
with; the third part states and proves the properties.

Modelling conventions.
* An `FString` is the list of its characters, terminator excluded; no text holds the
  terminator character, at which the engine's C string routines stop.  Lengths and indices
  are `int32` in the engine and `Int` here; no text is long enough to wrap.
* An `FName` is represented by the text `ToString()` yields for it; the name table is
  outside the model.
* The string routines the header calls (`StartsWith`, `RemoveFromStart`, `Find`, `Split`,
  `Replace`) all take an `ESearchCase` argument whose default is `IgnoreCase`, and the header
  never passes one: they compare characters after `ToUpper`.  `FString` equality, which
  keys `TMap<FString, _>`, is `Stricmp` and ignores case too.  Case folding is modelled on
  the ASCII letters.
* A loop of the engine or of the header is a function with a round count; for each it is
  proved that the count given is never exhausted (`SplitLoop_fuel`, `ReplaceLoop_fuel`).
* The overloads that take an `AActor*` pass `Actor->Tags` on and are the array overloads.
-/

namespace UTags

/-! ## Engine strings -/

/-- An engine string: its characters, terminator excluded. -/
abbrev FString := List Char

/-- A tag name, represented by the text that `ToString()` yields. -/
abbrev FName := FString

/-- The engine constant for "no index". -/
def INDEX_NONE : Int := -1

/-- Engine `TChar::ToUpper`, on the ASCII letters: `a`..`z` go to `A`..`Z`, every other
character is left alone. -/
def ToUpper (c : Char) : Char :=
  if 97 ≤ c.toNat ∧ c.toNat ≤ 122 then Char.ofNat (c.toNat - 32) else c

/-- Engine `FCString::Strnicmp(Str, Sub, Len(Sub)) == 0`: the text `Str` begins with the
characters of `Sub`, compared ignoring case.  A text that ends before `Sub` does differs
from it. -/
def Strnicmp0 : FString → FString → Bool
  | _, [] => true
  | [], _ :: _ => false
  | c :: cs, p :: ps => (ToUpper c == ToUpper p) && Strnicmp0 cs ps

/-- Engine `FCString::Stristr`: the offset of the first place in `Str` where `Sub` matches
ignoring case, or `none` for the null pointer.  The engine routine walks the characters of
`Str` and compares each with the first character of `Sub`; for an empty `Sub` that first
character is the terminator, which no character of `Str` equals, so the result is null. -/
def Stristr : FString → FString → Option Nat
  | _, [] => none
  | [], _ :: _ => none
  | c :: cs, f :: fs =>
    if (ToUpper c == ToUpper f) && Strnicmp0 cs fs then some 0
    else (Stristr cs (f :: fs)).map (· + 1)

/-- Engine `FString::Len`. -/
def Len (s : FString) : Int := s.length

/-- Engine `FString::IsEmpty`. -/
def IsEmpty (s : FString) : Bool := s.isEmpty

/-- Engine `FMath::Clamp`. -/
def Clamp (x lo hi : Int) : Int := if x < lo then lo else if x < hi then x else hi

/-- Engine `FString::Find(SubStr, SearchCase = ESearchCase::IgnoreCase, SearchDir =
ESearchDir::FromStart)`, as the header calls it: `Stristr` from the start of the text, the
index of the first match, `INDEX_NONE` when `Stristr` returns null. -/
def Find (s sub : FString) : Int :=
  match Stristr s sub with
  | some i => (i : Int)
  | none => INDEX_NONE

/-- Engine `FString::Left(Count)`: the leftmost `Clamp(Count, 0, Len())` characters. -/
def Left (s : FString) (Count : Int) : FString :=
  s.take (Clamp Count 0 (Len s)).toNat

/-- Engine `FString::Mid(Start)` with the default count: the text from `Start` on, `Start`
clamped to the text. -/
def Mid (s : FString) (Start : Int) : FString :=
  s.drop (Clamp Start 0 (Len s)).toNat

/-- Engine `FString::RemoveAt(Index, Count)`: the text without the `Count` characters that
start at `Index`.  A count that reaches the terminator leaves the text that precedes
`Index`. -/
def RemoveAt (s : FString) (Index Count : Int) : FString :=
  s.take Index.toNat ++ s.drop (Index.toNat + Count.toNat)

/-- Engine `FString::StartsWith(InPrefix, SearchCase = ESearchCase::IgnoreCase)`, as the
header calls it: `InPrefix.Len() > 0 && !Strnicmp(**this, *InPrefix, InPrefix.Len())`. -/
def StartsWith (s InPrefix : FString) : Bool :=
  decide (Len InPrefix > 0) && Strnicmp0 s InPrefix

/-- Engine `FString::RemoveFromStart(InPrefix, SearchCase = ESearchCase::IgnoreCase)`: it
returns false for an empty prefix, else tests `StartsWith` and removes `InPrefix.Len()`
characters.  Here `none` when the call returns false, otherwise the text left in the
string. -/
def RemoveFromStart (s InPrefix : FString) : Option FString :=
  if IsEmpty InPrefix then none
  else if StartsWith s InPrefix then some (RemoveAt s 0 (Len InPrefix))
  else none

/-- Engine `FString::Split(InS, &LeftS, &RightS, SearchCase = ESearchCase::IgnoreCase,
SearchDir = ESearchDir::FromStart)`: `InPos = Find(InS)`, false when `InPos < 0`, else
`LeftS = Left(InPos)` and `RightS = Mid(InPos + InS.Len())`.  Here `none` when the call
returns false, otherwise the texts stored in `LeftS` and `RightS`. -/
def Split (s InS : FString) : Option (FString × FString) :=
  let InPos := Find s InS
  if InPos < 0 then none
  else some (Left s InPos, Mid s (InPos + Len InS))

/-- The search loop of the engine's `FString::Replace`: `Travel` is the text still to be
searched, `Result` what has been produced.  Every round consumes the match, which is not
empty, so `Len(Travel)` rounds always suffice. -/
def ReplaceLoop (From To : FString) : Nat → FString → FString → FString
  | 0, Travel, Result => Result ++ Travel
  | fuel + 1, Travel, Result =>
    match Stristr Travel From with
    | none => Result ++ Travel
    | some loc =>
      ReplaceLoop From To fuel (Travel.drop (loc + From.length)) (Result ++ Travel.take loc ++ To)

/-- Engine `FString::Replace(From, To, SearchCase = ESearchCase::IgnoreCase)`: the text
itself when it or `From` is empty; otherwise every match of `From`, found left to right and
not overlapping, is replaced by `To`. -/
def Replace (s From To : FString) : FString :=
  if IsEmpty s || IsEmpty From then s
  else ReplaceLoop From To s.length s []

/-! ## Engine maps -/

/-- A `TMap<FString, FString>`: its pairs, in slot order. -/
abbrev TMap := List (FString × FString)

/-- Engine `FString::operator==`, by which `TMap<FString, _>` compares keys:
`Stricmp(a, b) == 0`, so letter case is ignored. -/
def KeyEq (a b : FString) : Bool := a.map ToUpper == b.map ToUpper

/-- Engine `TMap::Emplace`: a pair whose key equals the new key is replaced, key and value,
in its slot; otherwise the new pair is added. -/
def Emplace : TMap → FString → FString → TMap
  | [], k, v => [(k, v)]
  | (k0, v0) :: m, k, v => if KeyEq k0 k then (k, v) :: m else (k0, v0) :: Emplace m k v

/-- Engine `TMap::Find`: the value stored under a key, if any. -/
def TMap.Find (m : TMap) (k : FString) : Option FString :=
  (List.find? (fun p => KeyEq p.1 k) m).map Prod.snd

/-- Engine `TMap::Num`. -/
def TMap.Num (m : TMap) : Int := m.length

/-! ## FTagStatics -/

/-- The loop of `GetTagTypeIndex`; `TagIndex` is the index of the tag visited last. -/
def GetTagTypeIndexLoop (TagType : FString) : List FName → Int → Int
  | [], _ => INDEX_NONE
  | TagItr :: rest, TagIndex =>
    let TagIndex := TagIndex + 1
    if StartsWith TagItr TagType then TagIndex
    else GetTagTypeIndexLoop TagType rest TagIndex

/-- `FTagStatics::GetTagTypeIndex(const TArray<FName>&, const FString&)`. -/
def GetTagTypeIndex (InTags : List FName) (TagType : FString) : Int :=
  GetTagTypeIndexLoop TagType InTags INDEX_NONE

/-- The body of the `while (CurrTag.Split(";", &CurrPair, &CurrTag))` loop of
`GetKeyValuePairs`, for one pair fragment. -/
def AddPair (TagProperties : TMap) (CurrPair : FString) : TMap :=
  match Split CurrPair [','] with
  | some (CurrKey, CurrValue) =>
    if !IsEmpty CurrKey && !IsEmpty CurrValue then Emplace TagProperties CurrKey CurrValue
    else TagProperties
  | none => TagProperties

/-- The `while (CurrTag.Split(";", &CurrPair, &CurrTag))` loop of `GetKeyValuePairs`.
Every round removes at least the semicolon from `CurrTag`. -/
def SplitLoop : Nat → FString → TMap → TMap
  | 0, _, TagProperties => TagProperties
  | fuel + 1, CurrTag, TagProperties =>
    match Split CurrTag [';'] with
    | none => TagProperties
    | some (CurrPair, CurrTag) => SplitLoop fuel CurrTag (AddPair TagProperties CurrPair)

/-- The body of the `for` loop of `GetKeyValuePairs`, for one tag. -/
def AddTag (TagType : FString) (TagProperties : TMap) (TagItr : FName) : TMap :=
  match RemoveFromStart TagItr TagType with
  | some CurrTag => SplitLoop CurrTag.length CurrTag TagProperties
  | none => TagProperties

/-- `FTagStatics::GetKeyValuePairs(const TArray<FName>&, const FString&)`. -/
def GetKeyValuePairs (InTags : List FName) (TagType : FString) : TMap :=
  InTags.foldl (AddTag TagType) []

/-- `FTagStatics::HasKey(const FName&, const FString&)`. -/
def HasKey (InTag : FName) (TagKey : FString) : Bool :=
  if Find InTag TagKey ≠ INDEX_NONE then true else false

/-- `FTagStatics::GetKeyValue(const FName&, const FString&)`. -/
def GetKeyValue (InTag : FName) (TagKey : FString) : FString :=
  let CurrTag := InTag
  let KeyPos := Find CurrTag TagKey
  if KeyPos ≠ INDEX_NONE then
    let CurrTag := RemoveAt CurrTag 0 (KeyPos + Len TagKey + 1)
    Left CurrTag (Find CurrTag [';'])
  else []

/-- `FTagStatics::AddKeyValuePair(FName&, const FString&, const FString&, bool)`: the tag
after the call and the returned flag. -/
def AddKeyValuePair (InTag : FName) (TagKey TagValue : FString) (bReplaceExisting : Bool) :
    FName × Bool :=
  let CurrVal := GetKeyValue InTag TagKey
  if IsEmpty CurrVal then (InTag ++ TagKey ++ [','] ++ TagValue ++ [';'], true)
  else if bReplaceExisting then (Replace InTag CurrVal TagValue, true)
  else (InTag, false)

/-- Engine `TArray::operator[]`: the element, or `none` where the range check fails. -/
def TArrayAt (a : List FName) (i : Int) : Option FName :=
  if 0 ≤ i then a[i.toNat]? else none

/-- `FTagStatics::AddKeyValuePair(TArray<FName>&, ...)`: the array after the call and the
returned flag; `none` if the element access fails its range check. -/
def AddKeyValuePair_Tags (InTags : List FName) (TagType TagKey TagValue : FString)
    (bReplaceExisting : Bool) : Option (List FName × Bool) :=
  let TagIndex := GetTagTypeIndex InTags TagType
  if TagIndex ≠ INDEX_NONE then
    match TArrayAt InTags TagIndex with
    | some InTag =>
      let r := AddKeyValuePair InTag TagKey TagValue bReplaceExisting
      some (InTags.set TagIndex.toNat r.1, r.2)
    | none => none
  else some (InTags, false)

/-- `FTagStatics::HasKey(const TArray<FName>&, const FString&, const FString&)`; `none` if
the element access fails its range check. -/
def HasKey_Tags (InTags : List FName) (TagType TagKey : FString) : Option Bool :=
  let TagIndex := GetTagTypeIndex InTags TagType
  if TagIndex ≠ INDEX_NONE then
    match TArrayAt InTags TagIndex with
    | some InTag => some (HasKey InTag TagKey)
    | none => none
  else some false

/-- `FTagStatics::GetKeyValue(const TArray<FName>&, const FString&, const FString&)`;
`none` if the element access fails its range check. -/
def GetKeyValue_Tags (InTags : List FName) (TagType TagKey : FString) : Option FString :=
  let TagIndex := GetTagTypeIndex InTags TagType
  if TagIndex ≠ INDEX_NONE then
    match TArrayAt InTags TagIndex with
    | some InTag => some (GetKeyValue InTag TagKey)
    | none => none
  else some []

/-- Engine `TArray::Num` of the character array of a text: its characters and the
terminator; the empty text holds no array element. -/
def DataNum (s : FString) : Int := if IsEmpty s then 0 else Len s + 1

/-- Engine `FString::RemoveAt(Index, Count)` together with the range check of the
`TArray::RemoveAt` it calls on the character array,
`(Count >= 0) & (Index >= 0) & (Index + Count <= ArrayNum)`: `none` where the check fails,
otherwise the text left. -/
def RemoveAtChecked (s : FString) (Index Count : Int) : Option FString :=
  if 0 ≤ Count ∧ 0 ≤ Index ∧ Index + Count ≤ DataNum s then some (RemoveAt s Index Count)
  else none

/-- `FTagStatics::GetKeyValue(const FName&, const FString&)` with the range check of its
`RemoveAt` call kept: `none` where the check fails, otherwise the text returned.  (`Find`
reads up to the terminator and `Left` clamps its count, so they have no check to fail.) -/
def GetKeyValueChecked (InTag : FName) (TagKey : FString) : Option FString :=
  let CurrTag := InTag
  let KeyPos := Find CurrTag TagKey
  if KeyPos ≠ INDEX_NONE then
    match RemoveAtChecked CurrTag 0 (KeyPos + Len TagKey + 1) with
    | some CurrTag => some (Left CurrTag (Find CurrTag [';']))
    | none => none
  else some []

/-- An actor (`AActor*`), represented by its address. -/
abbrev AActor := Nat

/-- What `TActorIterator<AActor>(World)` visits: the actors of the world with their `Tags`,
in the order of the iteration. -/
abbrev UWorld := List (AActor × List FName)

/-- A `TMap<AActor*, TMap<FString, FString>>`: its pairs, in slot order. -/
abbrev TActorMap := List (AActor × TMap)

/-- Engine `TMap::Emplace` on a map keyed by actor pointers, which are compared as they
are: a pair with the same key is replaced in its slot, otherwise the pair is added. -/
def EmplaceActor : TActorMap → AActor → TMap → TActorMap
  | [], a, m => [(a, m)]
  | (a0, m0) :: r, a, m => if a0 = a then (a, m) :: r else (a0, m0) :: EmplaceActor r a m

/-- `FTagStatics::GetActorsToKeyValuePairs(UWorld*, const FString&)`. -/
def GetActorsToKeyValuePairs (World : UWorld) (TagType : FString) : TActorMap :=
  World.foldl (fun ActorToTagProperties ActorItr =>
    let TagProperties := GetKeyValuePairs ActorItr.2 TagType
    if TMap.Num TagProperties > 0 then
      EmplaceActor ActorToTagProperties ActorItr.1 TagProperties
    else ActorToTagProperties) []

/-! ## Reference notions

The properties below are stated against these definitions, which do not mention the code. -/

/-- Two texts are equal up to letter case. -/
def EqIC (a b : FString) : Prop := a.map ToUpper = b.map ToUpper

/-- The text `t` reads `k` at index `i`, letter case ignored: the `k.length` characters of
`t` from index `i` on exist and equal those of `k` up to case. -/
def ReadsAt (k t : FString) (i : Nat) : Prop :=
  i + k.length ≤ t.length ∧ EqIC ((t.drop i).take k.length) k

/-- The text `t` reads `k` somewhere, letter case ignored. -/
def Reads (k t : FString) : Prop := ∃ i, ReadsAt k t i

instance (a b : FString) : Decidable (EqIC a b) := by unfold EqIC; infer_instance

instance (k t : FString) (i : Nat) : Decidable (ReadsAt k t i) := by
  unfold ReadsAt; infer_instance

/-- The text `t` starts with `p`, letter case ignored, and `p` is not empty. -/
def StartsIC (p t : FString) : Prop := p ≠ [] ∧ ReadsAt p t 0

instance (p t : FString) : Decidable (StartsIC p t) := by unfold StartsIC; infer_instance

/-- The payload a mapping is written to: one fragment `key,value;` per pair, in the order
of the list. -/
def Serialize : List (FString × FString) → FString
  | [] => []
  | (k, v) :: L => k ++ [','] ++ v ++ [';'] ++ Serialize L

/-- A text that may stand as key or value in a tag: not empty and free of both
delimiters. -/
def Plain (s : FString) : Prop := s ≠ [] ∧ ',' ∉ s ∧ ';' ∉ s

instance (s : FString) : Decidable (Plain s) := by unfold Plain; infer_instance

/-- `ReplacedAll cur v s out`: the text `out` is `s` with every match of `cur` replaced by
`v` and every other character kept, the matches being taken from left to right, without
overlap and up to letter case. -/
inductive ReplacedAll (cur v : FString) : FString → FString → Prop
  | done (s : FString) : ¬ Reads cur s → ReplacedAll cur v s s
  | step (pre m post out : FString) : EqIC m cur →
      (∀ j, j < pre.length → ¬ ReadsAt cur (pre ++ m ++ post) j) →
      ReplacedAll cur v post out → ReplacedAll cur v (pre ++ m ++ post) (pre ++ v ++ out)

/-- The invariant of a map: no two pairs have equal keys, key equality being the map's
(letter case ignored). -/
def UniqueKeys (m : TMap) : Prop := m.Pairwise (fun p q => ¬ EqIC p.1 q.1)

instance (m : TMap) : Decidable (UniqueKeys m) := by unfold UniqueKeys; infer_instance

/-- An operation on maps is right-biased when its result on a map `m` is the union of what
it writes into the empty map and of `m`, the former winning on every key both hold.  This
is said twice: for the values `TMap::Find` returns, and for the pairs stored. -/
def RightBiased (f : TMap → TMap) : Prop :=
  ∀ m, (∀ k, TMap.Find (f m) k = (TMap.Find (f []) k).or (TMap.Find m k)) ∧
    (UniqueKeys m → UniqueKeys (f m) ∧
      ∀ p, p ∈ f m ↔ p ∈ f [] ∨ (p ∈ m ∧ TMap.Find (f []) p.1 = none))

/-- A pair as the parser may keep it: the key is not empty and free of comma and
semicolon, the value is not empty and free of semicolon. -/
def WellFormedPair (p : FString × FString) : Prop :=
  p.1 ≠ [] ∧ ',' ∉ p.1 ∧ ';' ∉ p.1 ∧ p.2 ≠ [] ∧ ';' ∉ p.2

/-- A fragment without key or without value: it holds no comma, or its first comma is its
first character, or its first comma is its last character. -/
def Malformed (f : FString) : Prop :=
  ',' ∉ f ∨ f.head? = some ',' ∨ (f.getLast? = some ',' ∧ ',' ∉ f.dropLast)

instance (f : FString) : Decidable (Malformed f) := by unfold Malformed; infer_instance

/-- A text after which a fragment starts: the empty text, or a text that ends with a
semicolon. -/
def EndsFragment (s : FString) : Prop := s = [] ∨ s.getLast? = some ';'

instance (s : FString) : Decidable (EndsFragment s) := by unfold EndsFragment; infer_instance

/-- The text `f` is a fragment of the payload `cur`: it holds no semicolon, a semicolon
follows it, and it stands at the start of the payload or after a semicolon. -/
def IsFragment (f cur : FString) : Prop :=
  ∃ a b, cur = a ++ f ++ ';' :: b ∧ EndsFragment a ∧ ';' ∉ f

/-- A fragment with a key and a value: text that is not empty stands before its first
comma, and after it. -/
def GoodFragment (f : FString) : Prop :=
  ∃ k v, f = k ++ ',' :: v ∧ ',' ∉ k ∧ k ≠ [] ∧ v ≠ []

/-- The `while` loop of `GetKeyValuePairs` run on a payload, with as many rounds as the
payload has characters (which `AddTag` gives it). -/
def ParsePayload (CurrTag : FString) (TagProperties : TMap) : TMap :=
  SplitLoop CurrTag.length CurrTag TagProperties

/-! ## Facts about the engine routines -/

theorem Char_toNat_ofNat (n : Nat) (h : n < 55296) : (Char.ofNat n).toNat = n := by
  have hv : Nat.isValidChar n := Or.inl h
  simp [Char.ofNat, hv, Char.ofNatAux, Char.toNat, UInt32.toNat]

theorem ToUpper_eq_iff (c d : Char) (hd : ¬ (65 ≤ d.toNat ∧ d.toNat ≤ 90))
    (hd2 : ¬ (97 ≤ d.toNat ∧ d.toNat ≤ 122)) : ToUpper c = d ↔ c = d := by
  unfold ToUpper
  split
  · rename_i h
    constructor
    · intro e
      exfalso
      have hn : (Char.ofNat (c.toNat - 32)).toNat = c.toNat - 32 := by
        apply Char_toNat_ofNat; omega
      rw [e] at hn
      omega
    · intro e; subst e; exact absurd h hd2
  · rfl

theorem ToUpper_semicolon (c : Char) : ToUpper c = ToUpper ';' ↔ c = ';' :=
  ToUpper_eq_iff c ';' (by decide) (by decide)

theorem ToUpper_comma (c : Char) : ToUpper c = ToUpper ',' ↔ c = ',' :=
  ToUpper_eq_iff c ',' (by decide) (by decide)

theorem Strnicmp0_iff (s p : FString) :
    Strnicmp0 s p = true ↔ p.length ≤ s.length ∧ EqIC (s.take p.length) p := by
  induction p generalizing s with
  | nil => simp [Strnicmp0, EqIC]
  | cons a p ih =>
    cases s with
    | nil => simp [Strnicmp0]
    | cons c cs =>
      simp only [Strnicmp0, Bool.and_eq_true, beq_iff_eq, ih, List.length_cons, List.take_succ_cons,
        EqIC, List.map_cons, List.cons.injEq]
      constructor
      · rintro ⟨h1, h2, h3⟩; exact ⟨by omega, h1, h3⟩
      · rintro ⟨h1, h2, h3⟩; exact ⟨h2, by omega, h3⟩

theorem Strnicmp0_drop_iff (t k : FString) (i : Nat) :
    Strnicmp0 (t.drop i) k = true ↔ (k = [] ∨ ReadsAt k t i) := by
  rw [Strnicmp0_iff]
  unfold ReadsAt
  rw [List.length_drop]
  by_cases hk : k = []
  · subst hk; simp [EqIC]
  · have hpos : 0 < k.length := List.length_pos.mpr hk
    simp only [hk, false_or]
    constructor
    · rintro ⟨h1, h2⟩; exact ⟨by omega, h2⟩
    · rintro ⟨h1, h2⟩; exact ⟨by omega, h2⟩

theorem Stristr_cons (c : Char) (cs sub : FString) (h : sub ≠ []) :
    Stristr (c :: cs) sub =
      if Strnicmp0 (c :: cs) sub then some 0 else (Stristr cs sub).map (· + 1) := by
  cases sub with
  | nil => exact absurd rfl h
  | cons f fs => simp [Stristr, Strnicmp0]

theorem Stristr_nil_right (s : FString) : Stristr s [] = none := by
  cases s <;> rfl

theorem Stristr_some_iff (s sub : FString) (i : Nat) :
    Stristr s sub = some i ↔
      sub ≠ [] ∧ ReadsAt sub s i ∧ ∀ j, j < i → ¬ ReadsAt sub s j := by
  by_cases hsub : sub = []
  · subst hsub; simp [Stristr_nil_right]
  simp only [ne_eq, hsub, not_false_eq_true, true_and]
  induction s generalizing i with
  | nil =>
    cases sub with
    | nil => exact absurd rfl hsub
    | cons f fs => simp [Stristr, ReadsAt]
  | cons c cs ih =>
    rw [Stristr_cons c cs sub hsub]
    have h0 : Strnicmp0 (c :: cs) sub = true ↔ ReadsAt sub (c :: cs) 0 := by
      have := Strnicmp0_drop_iff (c :: cs) sub 0
      simpa [hsub] using this
    have hsucc : ∀ j, ReadsAt sub (c :: cs) (j + 1) ↔ ReadsAt sub cs j := by
      intro j; unfold ReadsAt; simp only [List.length_cons, List.drop_succ_cons]
      constructor <;> rintro ⟨h1, h2⟩ <;> exact ⟨by omega, h2⟩
    by_cases hm : Strnicmp0 (c :: cs) sub = true
    · rw [if_pos hm]
      constructor
      · intro h; cases h; exact ⟨h0.mp hm, by intro j hj; omega⟩
      · rintro ⟨h1, h2⟩
        cases i with
        | zero => rfl
        | succ n => exact absurd (h0.mp hm) (h2 0 (by omega))
    · rw [if_neg hm]
      cases i with
      | zero =>
        constructor
        · intro h; cases hs : Stristr cs sub <;> simp [hs] at h
        · rintro ⟨h1, _⟩; exact absurd (h0.mpr h1) hm
      | succ n =>
        have := ih n
        constructor
        · intro h
          have h1 : Stristr cs sub = some n := by
            cases hs : Stristr cs sub <;> simp [hs] at h; simp [h]
          obtain ⟨a, b⟩ := this.mp h1
          refine ⟨(hsucc n).mpr a, ?_⟩
          intro j hj
          cases j with
          | zero => intro hr; exact hm (h0.mpr hr)
          | succ j => rw [hsucc]; exact b j (by omega)
        · rintro ⟨a, b⟩
          have h1 : Stristr cs sub = some n :=
            this.mpr ⟨(hsucc n).mp a, fun j hj hr => b (j + 1) (by omega) ((hsucc j).mpr hr)⟩
          simp [h1]

theorem Stristr_none_iff (s sub : FString) :
    Stristr s sub = none ↔ sub = [] ∨ ¬ Reads sub s := by
  by_cases hsub : sub = []
  · subst hsub; simp [Stristr_nil_right]
  simp only [hsub, false_or]
  constructor
  · intro h ⟨i, hi⟩
    have hex : ∃ j, ReadsAt sub s j := ⟨i, hi⟩
    have hmin := Nat.find_spec hex
    have hlt : ∀ j, j < Nat.find hex → ¬ ReadsAt sub s j := fun j hj => Nat.find_min hex hj
    have := (Stristr_some_iff s sub (Nat.find hex)).mpr ⟨hsub, hmin, hlt⟩
    rw [h] at this; cases this
  · intro h
    cases hs : Stristr s sub with
    | none => rfl
    | some i => exact absurd ⟨i, ((Stristr_some_iff s sub i).mp hs).2.1⟩ h

theorem StartsWith_iff (t p : FString) : StartsWith t p = true ↔ StartsIC p t := by
  have h := Strnicmp0_drop_iff t p 0
  rw [List.drop_zero] at h
  unfold StartsWith StartsIC Len
  rw [Bool.and_eq_true, h, decide_eq_true_iff]
  by_cases hp : p = []
  · subst hp; simp
  · have : 0 < p.length := List.length_pos.mpr hp
    simp [hp, this]

/-! ## GetTagTypeIndex -/

theorem GetTagTypeIndexLoop_spec (TagType : FString) (InTags : List FName) (idx : Int) :
    (GetTagTypeIndexLoop TagType InTags idx = INDEX_NONE ∧
        ∀ t ∈ InTags, ¬ StartsIC TagType t) ∨
    (∃ k : Nat, GetTagTypeIndexLoop TagType InTags idx = idx + 1 + k ∧
        (∃ t, InTags[k]? = some t ∧ StartsIC TagType t) ∧
        ∀ j : Nat, j < k → ∀ u, InTags[j]? = some u → ¬ StartsIC TagType u) := by
  induction InTags generalizing idx with
  | nil => left; simp [GetTagTypeIndexLoop]
  | cons a rest ih =>
    unfold GetTagTypeIndexLoop
    by_cases h : StartsWith a TagType = true
    · right
      refine ⟨0, by simp [h], ⟨a, by simp, (StartsWith_iff _ _).mp h⟩, by intro j hj; omega⟩
    · have hn : ¬ StartsIC TagType a := fun hs => h ((StartsWith_iff _ _).mpr hs)
      simp only [h, Bool.false_eq_true, if_false]
      rcases ih (idx + 1) with ⟨h1, h2⟩ | ⟨k, h1, ⟨t, ht, hst⟩, h3⟩
      · left
        refine ⟨h1, ?_⟩
        intro t ht
        rcases List.mem_cons.mp ht with rfl | ht
        · exact hn
        · exact h2 t ht
      · right
        refine ⟨k + 1, by rw [h1]; push_cast; ring, ⟨t, by simpa using ht, hst⟩, ?_⟩
        intro j hj u hu
        cases j with
        | zero => simp at hu; subst hu; exact hn
        | succ j => exact h3 j (by omega) u (by simpa using hu)

theorem GetTagTypeIndex_cases (InTags : List FName) (TagType : FString) :
    (GetTagTypeIndex InTags TagType = INDEX_NONE ∧ ∀ t ∈ InTags, ¬ StartsIC TagType t) ∨
    (∃ k : Nat, GetTagTypeIndex InTags TagType = (k : Int) ∧
        (∃ t, InTags[k]? = some t ∧ StartsIC TagType t) ∧
        ∀ j : Nat, j < k → ∀ u, InTags[j]? = some u → ¬ StartsIC TagType u) := by
  rcases GetTagTypeIndexLoop_spec TagType InTags INDEX_NONE with h | ⟨k, h1, h2, h3⟩
  · exact Or.inl h
  · refine Or.inr ⟨k, ?_, h2, h3⟩
    unfold GetTagTypeIndex
    rw [h1]; simp [INDEX_NONE]

/-- C2, as written, fails on the code.  The tag `foo:x,1;` is found for the type `FOO:`
although it does not start with these characters, and for the empty type no tag is found
although every text starts with the empty text. -/
theorem GetTagTypeIndex_not_literal :
    (GetTagTypeIndex ["foo:x,1;".toList] "FOO:".toList = 0 ∧
      ¬ ("FOO:".toList <+: "foo:x,1;".toList)) ∧
    (GetTagTypeIndex ["a".toList] [] = INDEX_NONE ∧ ([] : FString) <+: "a".toList) := by
  decide

/-- C2, amended: `GetTagTypeIndex` is the index of the first match, where a tag matches
when the type is not empty and the tag starts with it up to letter case.  It returns
`INDEX_NONE` exactly when no tag matches (so for the empty array); any other result `i` is
a valid index, tag `i` matches and no tag before it does. -/
theorem GetTagTypeIndex_first_match (InTags : List FName) (TagType : FString) :
    (GetTagTypeIndex InTags TagType = INDEX_NONE ↔ ∀ t ∈ InTags, ¬ StartsIC TagType t) ∧
    (∀ i : Int, GetTagTypeIndex InTags TagType = i → i ≠ INDEX_NONE →
      0 ≤ i ∧ i < InTags.length ∧
      (∃ t, InTags[i.toNat]? = some t ∧ StartsIC TagType t) ∧
      ∀ j : Nat, (j : Int) < i → ∀ u, InTags[j]? = some u → ¬ StartsIC TagType u) ∧
    GetTagTypeIndex [] TagType = INDEX_NONE := by
  refine ⟨?_, ?_, rfl⟩ <;>
  rcases GetTagTypeIndex_cases InTags TagType with ⟨h1, h2⟩ | ⟨k, h1, ⟨t, ht, hst⟩, h3⟩
  · exact ⟨fun _ => h2, fun _ => h1⟩
  · constructor
    · intro h; rw [h1] at h; simp [INDEX_NONE] at h
    · intro h; exact absurd hst (h t (List.mem_iff_getElem?.mpr ⟨k, ht⟩))
  · intro i hi hne
    exact absurd (hi ▸ h1) hne
  · have hk : k < InTags.length := by
      by_contra hge
      rw [List.getElem?_eq_none (by omega)] at ht
      cases ht
    intro i hi _
    rw [h1] at hi; subst hi
    refine ⟨by omega, by exact_mod_cast hk, ⟨t, by simpa using ht, hst⟩, ?_⟩
    intro j hj u hu
    exact h3 j (by exact_mod_cast hj) u hu

/-! ## Searching -/

theorem Find_of_some {s sub : FString} {i : Nat} (h : Stristr s sub = some i) :
    Find s sub = (i : Int) := by
  simp [Find, h]

theorem Find_of_none {s sub : FString} (h : Stristr s sub = none) :
    Find s sub = INDEX_NONE := by
  simp [Find, h]

theorem Find_eq_none_iff (s sub : FString) :
    Find s sub = INDEX_NONE ↔ Stristr s sub = none := by
  cases h : Stristr s sub with
  | none => simp [Find, h]
  | some i => simp [Find, h, INDEX_NONE]

theorem Find_ne_none_iff (s sub : FString) :
    Find s sub ≠ INDEX_NONE ↔ sub ≠ [] ∧ Reads sub s := by
  rw [ne_eq, Find_eq_none_iff, Stristr_none_iff]
  tauto

theorem Stristr_first {s sub : FString} {p : Nat} (hsub : sub ≠ []) (hp : ReadsAt sub s p)
    (hmin : ∀ j, j < p → ¬ ReadsAt sub s j) : Stristr s sub = some p :=
  (Stristr_some_iff s sub p).mpr ⟨hsub, hp, hmin⟩

theorem Clamp_natCast (n m : Nat) : (Clamp (n : Int) 0 (m : Int)).toNat = min n m := by
  unfold Clamp
  have h3 : ¬ ((n : Int) < 0) := by omega
  by_cases h : n < m
  · have h2 : ((n : Int) < (m : Int)) := by exact_mod_cast h
    rw [if_neg h3, if_pos h2, Int.toNat_ofNat]; omega
  · have h2 : ¬ ((n : Int) < (m : Int)) := by exact_mod_cast h
    rw [if_neg h3, if_neg h2, Int.toNat_ofNat]; omega

theorem Left_natCast (s : FString) (n : Nat) : Left s (n : Int) = s.take n := by
  unfold Left Len
  rw [Clamp_natCast]
  by_cases h : n ≤ s.length
  · rw [Nat.min_eq_left h]
  · rw [Nat.min_eq_right (by omega), List.take_of_length_le (le_refl _),
      List.take_of_length_le (by omega)]

theorem Left_none (s : FString) : Left s INDEX_NONE = [] := by
  simp [Left, Clamp, INDEX_NONE]

theorem Mid_natCast (s : FString) (n : Nat) : Mid s (n : Int) = s.drop n := by
  unfold Mid Len
  rw [Clamp_natCast]
  by_cases h : n ≤ s.length
  · rw [Nat.min_eq_left h]
  · rw [Nat.min_eq_right (by omega), List.drop_of_length_le (le_refl _),
      List.drop_of_length_le (by omega)]

theorem RemoveAt_zero (s : FString) (n : Nat) : RemoveAt s 0 (n : Int) = s.drop n := by
  simp [RemoveAt]

theorem take_one_drop (s : FString) (i : Nat) (hi : i < s.length) :
    (s.drop i).take 1 = [s[i]] := by
  rw [List.drop_eq_getElem_cons hi]; rfl

theorem ReadsAt_singleton (d : Char) (s : FString) (i : Nat) :
    ReadsAt [d] s i ↔ ∃ c, s[i]? = some c ∧ ToUpper c = ToUpper d := by
  unfold ReadsAt EqIC
  constructor
  · rintro ⟨h1, h2⟩
    have hi : i < s.length := by simpa using h1
    refine ⟨s[i], by simp [hi], ?_⟩
    rw [List.length_singleton, take_one_drop s i hi] at h2
    simpa using h2
  · rintro ⟨c, hc, hu⟩
    have hi : i < s.length := by
      by_contra hge
      rw [List.getElem?_eq_none (by omega)] at hc
      cases hc
    refine ⟨by simpa using hi, ?_⟩
    rw [List.length_singleton, take_one_drop s i hi]
    rw [List.getElem?_eq_getElem hi] at hc
    cases hc
    simp [hu]

theorem ReadsAt_delim {d : Char} (hd : ∀ c, ToUpper c = ToUpper d ↔ c = d) (s : FString)
    (i : Nat) : ReadsAt [d] s i ↔ s[i]? = some d := by
  rw [ReadsAt_singleton]
  constructor
  · rintro ⟨c, hc, hu⟩; rw [(hd c).mp hu] at hc; exact hc
  · intro h; exact ⟨_, h, rfl⟩

theorem ReadsAt_semicolon (s : FString) (i : Nat) : ReadsAt [';'] s i ↔ s[i]? = some ';' :=
  ReadsAt_delim ToUpper_semicolon s i

theorem ReadsAt_comma (s : FString) (i : Nat) : ReadsAt [','] s i ↔ s[i]? = some ',' :=
  ReadsAt_delim ToUpper_comma s i

theorem Stristr_delim {d : Char} (hd : ∀ c, ToUpper c = ToUpper d ↔ c = d) (a b : FString)
    (ha : d ∉ a) : Stristr (a ++ d :: b) [d] = some a.length := by
  apply Stristr_first (by simp)
  · rw [ReadsAt_delim hd, List.getElem?_append_right (le_refl _)]; simp
  · intro j hj
    rw [ReadsAt_delim hd, List.getElem?_append_left hj, List.getElem?_eq_getElem hj]
    intro h
    apply ha
    have := List.getElem_mem hj
    simp only [Option.some.injEq] at h
    rwa [h] at this

theorem Stristr_delim_none {d : Char} (hd : ∀ c, ToUpper c = ToUpper d ↔ c = d) (a : FString)
    (ha : d ∉ a) : Stristr a [d] = none := by
  rw [Stristr_none_iff]
  right
  rintro ⟨i, hi⟩
  rw [ReadsAt_delim hd] at hi
  exact ha (List.getElem?_mem hi)

theorem Split_delim {d : Char} (hd : ∀ c, ToUpper c = ToUpper d ↔ c = d) (a b : FString)
    (ha : d ∉ a) : Split (a ++ d :: b) [d] = some (a, b) := by
  have hf := Find_of_some (Stristr_delim hd a b ha)
  have hn : ¬ ((a.length : Int) < 0) := by omega
  have hm : (a.length : Int) + Len [d] = ((a.length + 1 : Nat) : Int) := by simp [Len]
  simp only [Split, hf, hn, if_false, hm, Left_natCast, Mid_natCast, List.take_left]
  rw [show a ++ d :: b = (a ++ [d]) ++ b by simp,
    List.drop_left' (by simp : (a ++ [d]).length = a.length + 1)]

theorem Split_delim_none {d : Char} (hd : ∀ c, ToUpper c = ToUpper d ↔ c = d) (a : FString)
    (ha : d ∉ a) : Split a [d] = none := by
  simp [Split, Find_of_none (Stristr_delim_none hd a ha), INDEX_NONE]

theorem Split_length {s InS a b : FString} (h : Split s InS = some (a, b)) :
    b.length < s.length ∨ InS = [] := by
  unfold Split at h
  cases hs : Stristr s InS with
  | none => simp [Find_of_none hs, INDEX_NONE] at h
  | some i =>
    left
    obtain ⟨hne, ⟨hlen, _⟩, _⟩ := (Stristr_some_iff s InS i).mp hs
    have hpos : 0 < InS.length := List.length_pos.mpr hne
    have hn : ¬ ((i : Int) < 0) := by omega
    have hm : (i : Int) + Len InS = ((i + InS.length : Nat) : Int) := by simp [Len]
    simp only [Find_of_some hs, hn, if_false, hm, Left_natCast, Mid_natCast, Option.some.injEq,
      Prod.mk.injEq] at h
    rw [← h.2, List.length_drop]
    omega

/-! ## HasKey -/

/-- C9, as written, fails on the code.  `HasKey` finds the key `bar` in a tag that holds
`Bar` only, and it does not find the empty key, which is a substring of every text. -/
theorem HasKey_not_literal :
    (HasKey "Foo:Bar,Baz;".toList "bar".toList = true ∧
      ¬ ("bar".toList <:+: "Foo:Bar,Baz;".toList)) ∧
    (HasKey "Foo:".toList [] = false ∧ ([] : FString) <:+: "Foo:".toList) := by
  decide

/-- C9, amended: `HasKey` on one tag is a raw substring test up to letter case.  It is true
exactly when the key is not empty and the tag's text reads the key somewhere, letter case
ignored (in the type, in another key or in a value alike); and it is true exactly when the
search `GetKeyValue` starts with finds the key. -/
theorem HasKey_iff_reads (InTag : FName) (TagKey : FString) :
    (HasKey InTag TagKey = true ↔ TagKey ≠ [] ∧ Reads TagKey InTag) ∧
    (HasKey InTag TagKey = true ↔ Find InTag TagKey ≠ INDEX_NONE) := by
  have h : HasKey InTag TagKey = true ↔ Find InTag TagKey ≠ INDEX_NONE := by
    unfold HasKey
    by_cases hf : Find InTag TagKey = INDEX_NONE <;> simp [hf]
  exact ⟨h.trans (Find_ne_none_iff _ _), h⟩

/-! ## GetKeyValue -/

theorem GetKeyValue_of_none {InTag : FName} {TagKey : FString}
    (h : Stristr InTag TagKey = none) : GetKeyValue InTag TagKey = [] := by
  simp [GetKeyValue, Find_of_none h]

theorem GetKeyValue_of_some {InTag : FName} {TagKey : FString} {p : Nat}
    (h : Stristr InTag TagKey = some p) :
    GetKeyValue InTag TagKey =
      Left (InTag.drop (p + TagKey.length + 1))
        (Find (InTag.drop (p + TagKey.length + 1)) [';']) := by
  have hne : (p : Int) ≠ INDEX_NONE := by simp [INDEX_NONE]
  have hcast : (p : Int) + Len TagKey + 1 = ((p + TagKey.length + 1 : Nat) : Int) := by
    simp [Len]
  simp only [GetKeyValue, Find_of_some h, ne_eq, hne, not_false_eq_true, if_true, hcast,
    RemoveAt_zero]

theorem getElem?_drop_add (s : FString) (q j : Nat) : (s.drop q)[j]? = s[q + j]? := by
  simp [List.getElem?_drop]

theorem Stristr_semicolon_of_first {s : FString} {q r : Nat} (hqr : q ≤ r)
    (hr : s[r]? = some ';') (hmin : ∀ j, q ≤ j → j < r → s[j]? ≠ some ';') :
    Stristr (s.drop q) [';'] = some (r - q) := by
  apply Stristr_first (by simp)
  · rw [ReadsAt_semicolon, getElem?_drop_add]
    rw [show q + (r - q) = r by omega]; exact hr
  · intro j hj
    rw [ReadsAt_semicolon, getElem?_drop_add]
    exact hmin (q + j) (by omega) (by omega)

/-- C3, as written, fails on the code.  For the key `bar`, which is no substring of the tag
`Foo:Bar,Baz;`, the result is `Baz` and not the empty text; for the empty key, which occurs
first at index 0 of `ab;`, the result is empty and not the text from index 1 up to the
semicolon. -/
theorem GetKeyValue_not_literal :
    (¬ ("bar".toList <:+: "Foo:Bar,Baz;".toList) ∧
      GetKeyValue "Foo:Bar,Baz;".toList "bar".toList = "Baz".toList) ∧
    (([] : FString) <+: "ab;".toList ∧ "ab;".toList[2]? = some ';' ∧
      ("ab;".toList.drop 1).take (2 - 1) = "b".toList ∧
      GetKeyValue "ab;".toList [] = []) := by
  decide

/-- C3, amended: for a key that is not empty, with the key looked for up to letter case.
If the tag's text reads the key nowhere the result is the empty text; otherwise, with `p`
the first index where the text reads the key and `q = p + length(key) + 1`, whenever a
semicolon stands at or after index `q` the result is the text from index `q` up to, and
excluding, the first such semicolon. -/
theorem GetKeyValue_reference (InTag : FName) (TagKey : FString) (hk : TagKey ≠ []) :
    (¬ Reads TagKey InTag → GetKeyValue InTag TagKey = []) ∧
    (∀ p : Nat, ReadsAt TagKey InTag p → (∀ j, j < p → ¬ ReadsAt TagKey InTag j) →
      ∀ r : Nat, p + TagKey.length + 1 ≤ r → InTag[r]? = some ';' →
        (∀ j, p + TagKey.length + 1 ≤ j → j < r → InTag[j]? ≠ some ';') →
        GetKeyValue InTag TagKey =
          (InTag.drop (p + TagKey.length + 1)).take (r - (p + TagKey.length + 1))) := by
  constructor
  · intro h
    exact GetKeyValue_of_none ((Stristr_none_iff _ _).mpr (Or.inr h))
  · intro p hp hmin r hqr hr hrmin
    rw [GetKeyValue_of_some (Stristr_first hk hp hmin),
      Find_of_some (Stristr_semicolon_of_first hqr hr hrmin), Left_natCast]

theorem not_Reads_of_forall {k t : FString}
    (h : ∀ i, i < t.length + 1 → ¬ ReadsAt k t i) : ¬ Reads k t := by
  rintro ⟨i, hi⟩
  exact h i (by have := hi.1; omega) hi

/-- The amended C3 at the tag `Foo:Bar,Baz;`: the key `Bar` is read first at index 4, the
first semicolon from index 8 on stands at index 11, and the value is `Baz`; the key `Nope`
is read nowhere and has the empty value. -/
theorem GetKeyValue_reference_witness :
    GetKeyValue "Foo:Bar,Baz;".toList "Bar".toList = "Baz".toList ∧
    GetKeyValue "Foo:Bar,Baz;".toList "Nope".toList = [] :=
  ⟨((GetKeyValue_reference "Foo:Bar,Baz;".toList "Bar".toList (by decide)).2 4
      (by decide) (by decide) 11 (by decide) (by decide) (by decide)).trans (by decide),
    (GetKeyValue_reference "Foo:Bar,Baz;".toList "Nope".toList (by decide)).1
      (not_Reads_of_forall (by decide))⟩

/-! ## AddKeyValuePair on one tag -/

/-- C4: when `GetKeyValue` reads no value for the key, `AddKeyValuePair` appends the
fragment `key,value;` to the tag and returns true, whatever `bReplaceExisting` is. -/
theorem AddKeyValuePair_append (InTag : FName) (TagKey TagValue : FString)
    (bReplaceExisting : Bool) (h : GetKeyValue InTag TagKey = []) :
    AddKeyValuePair InTag TagKey TagValue bReplaceExisting =
      (InTag ++ TagKey ++ [','] ++ TagValue ++ [';'], true) := by
  simp [AddKeyValuePair, h, IsEmpty]

/-- C4 at the tag `Foo:` with key `X` and value `1`: the tag becomes `Foo:X,1;`. -/
theorem AddKeyValuePair_append_witness :
    AddKeyValuePair "Foo:".toList "X".toList "1".toList true = ("Foo:X,1;".toList, true) :=
  AddKeyValuePair_append "Foo:".toList "X".toList "1".toList true (by decide)

/-- C7: when `GetKeyValue` reads a value for the key and `bReplaceExisting` is false,
`AddKeyValuePair` leaves the tag as it is and returns false. -/
theorem AddKeyValuePair_keep (InTag : FName) (TagKey TagValue : FString)
    (h : GetKeyValue InTag TagKey ≠ []) :
    AddKeyValuePair InTag TagKey TagValue false = (InTag, false) := by
  simp [AddKeyValuePair, h, IsEmpty]

/-- C7 at the tag `Foo:X,1;` with key `X` and value `2`. -/
theorem AddKeyValuePair_keep_witness :
    AddKeyValuePair "Foo:X,1;".toList "X".toList "2".toList false =
      ("Foo:X,1;".toList, false) :=
  AddKeyValuePair_keep "Foo:X,1;".toList "X".toList "2".toList (by decide)

/-! ## AddKeyValuePair on a tag array -/

/-- C8: `AddKeyValuePair` on a tag array passes its range check and rewrites at most one
tag.  The array keeps its length.  Either `GetTagTypeIndex` returns `INDEX_NONE`, the array
is unchanged and the result is false; or it returns an index `i` of the array, element `i`
becomes the tag that `AddKeyValuePair` on one tag makes of the old element `i`, the result
is that call's flag, and every other element is unchanged. -/
theorem AddKeyValuePair_Tags_frame (InTags : List FName) (TagType TagKey TagValue : FString)
    (bReplaceExisting : Bool) :
    ∃ OutTags changed,
      AddKeyValuePair_Tags InTags TagType TagKey TagValue bReplaceExisting =
        some (OutTags, changed) ∧
      OutTags.length = InTags.length ∧
      ((GetTagTypeIndex InTags TagType = INDEX_NONE ∧ OutTags = InTags ∧ changed = false) ∨
        ∃ i : Nat, GetTagTypeIndex InTags TagType = (i : Int) ∧
          ∃ t, InTags[i]? = some t ∧
            OutTags[i]? = some (AddKeyValuePair t TagKey TagValue bReplaceExisting).1 ∧
            changed = (AddKeyValuePair t TagKey TagValue bReplaceExisting).2 ∧
            ∀ j : Nat, j ≠ i → OutTags[j]? = InTags[j]?) := by
  rcases GetTagTypeIndex_cases InTags TagType with ⟨h1, _⟩ | ⟨k, h1, ⟨t, ht, _⟩, _⟩
  · exact ⟨InTags, false, by simp [AddKeyValuePair_Tags, h1], rfl, Or.inl ⟨h1, rfl, rfl⟩⟩
  · have hk : k < InTags.length := by
      by_contra hge
      rw [List.getElem?_eq_none (by omega)] at ht
      cases ht
    have hne : (k : Int) ≠ INDEX_NONE := by simp [INDEX_NONE]
    refine ⟨InTags.set k (AddKeyValuePair t TagKey TagValue bReplaceExisting).1,
      (AddKeyValuePair t TagKey TagValue bReplaceExisting).2, ?_, by simp, Or.inr ?_⟩
    · simp [AddKeyValuePair_Tags, h1, hne, TArrayAt, ht]
    · refine ⟨k, h1, t, ht, by simp [hk], rfl, ?_⟩
      intro j hj
      rw [List.getElem?_set_ne (Ne.symm hj)]

/-! ## Maps -/

theorem KeyEq_iff (a b : FString) : KeyEq a b = true ↔ EqIC a b := by
  simp [KeyEq, EqIC]

theorem Find_Emplace (m : TMap) (a v k : FString) :
    TMap.Find (Emplace m a v) k = if KeyEq a k then some v else TMap.Find m k := by
  induction m with
  | nil => simp [Emplace, TMap.Find, List.find?_cons]; cases h : KeyEq a k <;> simp
  | cons hd m ih =>
    obtain ⟨k0, v0⟩ := hd
    unfold Emplace
    by_cases h0 : KeyEq k0 a = true
    · rw [if_pos h0]
      by_cases h1 : KeyEq a k = true
      · simp [TMap.Find, List.find?_cons, h1]
      · have h2 : KeyEq k0 k = false := by
          cases h2 : KeyEq k0 k
          · rfl
          · exfalso; apply h1
            rw [KeyEq_iff] at h0 h2 ⊢
            exact h0.symm.trans h2
        simp only [Bool.not_eq_true] at h1
        simp [TMap.Find, List.find?_cons, h1, h2]
    · rw [if_neg h0]
      have ih2 : TMap.Find ((k0, v0) :: Emplace m a v) k =
          if KeyEq k0 k then some v0 else TMap.Find (Emplace m a v) k := by
        cases h2 : KeyEq k0 k <;> simp [TMap.Find, List.find?_cons, h2]
      rw [ih2, ih]
      by_cases h1 : KeyEq a k = true
      · have h2 : KeyEq k0 k = false := by
          cases h2 : KeyEq k0 k
          · rfl
          · exfalso; apply h0
            rw [KeyEq_iff] at h1 h2 ⊢
            exact h2.trans h1.symm
        simp [h1, h2]
      · simp only [Bool.not_eq_true] at h1
        cases h2 : KeyEq k0 k <;> simp [TMap.Find, List.find?_cons, h1, h2]

theorem Emplace_fresh (m : TMap) (k v : FString) (h : ∀ p ∈ m, ¬ EqIC p.1 k) :
    Emplace m k v = m ++ [(k, v)] := by
  induction m with
  | nil => rfl
  | cons hd m ih =>
    obtain ⟨k0, v0⟩ := hd
    have h0 : ¬ (KeyEq k0 k = true) := fun e =>
      h (k0, v0) (List.mem_cons_self _ _) ((KeyEq_iff _ _).mp e)
    unfold Emplace
    rw [if_neg h0, ih (fun p hp => h p (List.mem_cons_of_mem _ hp))]
    rfl

theorem mem_Emplace (m : TMap) (a v : FString) (hm : UniqueKeys m) (p : FString × FString) :
    p ∈ Emplace m a v ↔ p = (a, v) ∨ (p ∈ m ∧ ¬ EqIC p.1 a) := by
  induction m with
  | nil => simp [Emplace]
  | cons hd m ih =>
    obtain ⟨k0, v0⟩ := hd
    obtain ⟨hhd, htl⟩ := List.pairwise_cons.mp hm
    unfold Emplace
    by_cases h0 : KeyEq k0 a = true
    · rw [if_pos h0]
      have e0 : EqIC k0 a := (KeyEq_iff _ _).mp h0
      simp only [List.mem_cons]
      constructor
      · rintro (h | h)
        · exact Or.inl h
        · exact Or.inr ⟨Or.inr h, fun e => hhd p h (e0.trans e.symm)⟩
      · rintro (h | ⟨h | h, hne⟩)
        · exact Or.inl h
        · subst h; exact absurd e0 hne
        · exact Or.inr h
    · rw [if_neg h0]
      have e0 : ¬ EqIC k0 a := fun e => h0 ((KeyEq_iff _ _).mpr e)
      simp only [List.mem_cons, ih htl]
      constructor
      · rintro (h | h | ⟨h, hne⟩)
        · subst h; exact Or.inr ⟨Or.inl rfl, e0⟩
        · exact Or.inl h
        · exact Or.inr ⟨Or.inr h, hne⟩
      · rintro (h | ⟨h | h, hne⟩)
        · exact Or.inr (Or.inl h)
        · exact Or.inl h
        · exact Or.inr (Or.inr ⟨h, hne⟩)

theorem UniqueKeys_Emplace (m : TMap) (a v : FString) (hm : UniqueKeys m) :
    UniqueKeys (Emplace m a v) := by
  induction m with
  | nil => simp [Emplace, UniqueKeys]
  | cons hd m ih =>
    obtain ⟨k0, v0⟩ := hd
    obtain ⟨hhd, htl⟩ := List.pairwise_cons.mp hm
    unfold Emplace
    by_cases h0 : KeyEq k0 a = true
    · rw [if_pos h0]
      have e0 : EqIC k0 a := (KeyEq_iff _ _).mp h0
      exact List.pairwise_cons.mpr ⟨fun p hp e => hhd p hp (e0.trans e), htl⟩
    · rw [if_neg h0]
      have e0 : ¬ EqIC k0 a := fun e => h0 ((KeyEq_iff _ _).mpr e)
      refine List.pairwise_cons.mpr ⟨?_, ih htl⟩
      intro p hp
      rcases (mem_Emplace m a v htl p).mp hp with h | ⟨h, _⟩
      · subst h; exact e0
      · exact hhd p h

theorem Find_nil (k : FString) : TMap.Find ([] : TMap) k = none := rfl

theorem RightBiased_id : RightBiased (fun m => m) := by
  intro m
  refine ⟨fun k => by simp [Find_nil], fun hm => ⟨hm, fun p => by simp [Find_nil]⟩⟩

theorem RightBiased_Emplace (a v : FString) : RightBiased (fun m => Emplace m a v) := by
  intro m
  constructor
  · intro k
    rw [Find_Emplace, Find_Emplace]
    cases KeyEq a k <;> simp [Find_nil]
  · intro hm
    refine ⟨UniqueKeys_Emplace m a v hm, fun p => ?_⟩
    rw [mem_Emplace m a v hm, Find_Emplace, Find_nil]
    have hiff : KeyEq a p.1 = true ↔ EqIC p.1 a := by
      rw [KeyEq_iff]; exact ⟨fun e => e.symm, fun e => e.symm⟩
    by_cases h : KeyEq a p.1 = true
    · simp [Emplace, h, hiff.mp h]
    · have hn : ¬ EqIC p.1 a := fun e => h (hiff.mpr e)
      simp [Emplace, h, hn]

theorem RightBiased_comp (f g : TMap → TMap) (hf : RightBiased f) (hg : RightBiased g) :
    RightBiased (fun m => g (f m)) := by
  intro m
  have hnil : UniqueKeys ([] : TMap) := List.Pairwise.nil
  have hfind : ∀ m k, TMap.Find (g (f m)) k =
      (TMap.Find (g (f [])) k).or (TMap.Find m k) := by
    intro m k
    rw [(hg (f m)).1 k, (hf m).1 k, (hg (f [])).1 k]
    cases TMap.Find (g []) k <;> cases TMap.Find (f []) k <;> cases TMap.Find m k <;> rfl
  refine ⟨hfind m, fun hm => ?_⟩
  obtain ⟨hfm, hfmem⟩ := (hf m).2 hm
  obtain ⟨hgm, hgmem⟩ := (hg (f m)).2 hfm
  obtain ⟨hf0, _⟩ := (hf []).2 hnil
  obtain ⟨_, hg0mem⟩ := (hg (f [])).2 hf0
  refine ⟨hgm, fun p => ?_⟩
  show p ∈ g (f m) ↔ p ∈ g (f []) ∨ (p ∈ m ∧ TMap.Find (g (f [])) p.1 = none)
  rw [hgmem p, hfmem p, hg0mem p, (hg (f [])).1 p.1]
  cases hgn : TMap.Find (g []) p.1 <;> cases hfn : TMap.Find (f []) p.1 <;>
    (simp only [Option.or, reduceCtorEq, and_true, and_false, or_false]; try tauto)

theorem RightBiased_AddPair (CurrPair : FString) : RightBiased (fun m => AddPair m CurrPair) := by
  unfold AddPair
  cases Split CurrPair [','] with
  | none => exact RightBiased_id
  | some kv =>
    obtain ⟨a, v⟩ := kv
    by_cases h : (!IsEmpty a && !IsEmpty v) = true
    · simp only [h, if_true]; exact RightBiased_Emplace a v
    · simp only [h, if_false]; exact RightBiased_id

theorem RightBiased_SplitLoop (fuel : Nat) (CurrTag : FString) :
    RightBiased (fun m => SplitLoop fuel CurrTag m) := by
  induction fuel generalizing CurrTag with
  | zero => exact RightBiased_id
  | succ fuel ih =>
    unfold SplitLoop
    cases Split CurrTag [';'] with
    | none => exact RightBiased_id
    | some pr =>
      obtain ⟨CurrPair, rest⟩ := pr
      exact RightBiased_comp _ _ (RightBiased_AddPair CurrPair) (ih rest)

theorem RightBiased_AddTag (TagType : FString) (TagItr : FName) :
    RightBiased (fun m => AddTag TagType m TagItr) := by
  unfold AddTag
  cases RemoveFromStart TagItr TagType with
  | none => exact RightBiased_id
  | some CurrTag => exact RightBiased_SplitLoop _ _

theorem RightBiased_foldl (TagType : FString) (InTags : List FName) :
    RightBiased (fun m => InTags.foldl (AddTag TagType) m) := by
  induction InTags with
  | nil => exact RightBiased_id
  | cons t rest ih =>
    simp only [List.foldl_cons]
    exact RightBiased_comp _ _ (RightBiased_AddTag TagType t) ih

theorem UniqueKeys_GetKeyValuePairs (InTags : List FName) (TagType : FString) :
    UniqueKeys (GetKeyValuePairs InTags TagType) :=
  ((RightBiased_foldl TagType InTags []).2 List.Pairwise.nil).1

/-! ## GetKeyValuePairs -/

/-- C10: `GetKeyValuePairs` on the tags `A ++ B` is the right-biased union of its results
on `A` and on `B`.  A key that the map for `B` holds has the value it has there and every
other key has what the map for `A` gives it; and the pairs stored are those of the map for
`B` together with those pairs of the map for `A` whose key the map for `B` does not hold. -/
theorem GetKeyValuePairs_append (A B : List FName) (TagType : FString) :
    (∀ k, TMap.Find (GetKeyValuePairs (A ++ B) TagType) k =
      (TMap.Find (GetKeyValuePairs B TagType) k).or
        (TMap.Find (GetKeyValuePairs A TagType) k)) ∧
    (∀ p, p ∈ GetKeyValuePairs (A ++ B) TagType ↔
      p ∈ GetKeyValuePairs B TagType ∨
        (p ∈ GetKeyValuePairs A TagType ∧
          TMap.Find (GetKeyValuePairs B TagType) p.1 = none)) := by
  have h := RightBiased_foldl TagType B (GetKeyValuePairs A TagType)
  have hA := UniqueKeys_GetKeyValuePairs A TagType
  unfold GetKeyValuePairs at h hA ⊢
  rw [List.foldl_append]
  exact ⟨h.1, (h.2 hA).2⟩

theorem SplitLoop_fuel (fuel : Nat) (CurrTag : FString) (m : TMap)
    (h : CurrTag.length ≤ fuel) :
    SplitLoop fuel CurrTag m = SplitLoop CurrTag.length CurrTag m := by
  induction fuel using Nat.strong_induction_on generalizing CurrTag m with
  | _ fuel ih =>
    cases hs : Split CurrTag [';'] with
    | none =>
      have e1 : SplitLoop fuel CurrTag m = m := by
        cases fuel <;> simp [SplitLoop, hs]
      have e2 : SplitLoop CurrTag.length CurrTag m = m := by
        cases CurrTag.length <;> simp [SplitLoop, hs]
      rw [e1, e2]
    | some pr =>
      obtain ⟨CurrPair, rest⟩ := pr
      have hlt : rest.length < CurrTag.length := by
        rcases Split_length hs with h1 | h1
        · exact h1
        · cases h1
      obtain ⟨f, rfl⟩ : ∃ f, fuel = f + 1 := ⟨fuel - 1, by omega⟩
      obtain ⟨n, hn⟩ : ∃ n, CurrTag.length = n + 1 := ⟨CurrTag.length - 1, by omega⟩
      rw [hn]
      simp only [SplitLoop, hs]
      rw [ih f (by omega) rest _ (by omega), ih n (by omega) rest _ (by omega)]

theorem Serialize_cons (k v : FString) (L : List (FString × FString)) :
    Serialize ((k, v) :: L) = (k ++ ',' :: v) ++ ';' :: Serialize L := by
  simp [Serialize]

theorem length_le_Serialize (L : List (FString × FString)) :
    L.length ≤ (Serialize L).length := by
  induction L with
  | nil => simp
  | cons hd L ih =>
    obtain ⟨k, v⟩ := hd
    rw [Serialize_cons]
    simp only [List.length_cons, List.length_append]
    omega

theorem AddPair_plain (m : TMap) (k v : FString) (hk : Plain k) (hv : Plain v)
    (hfresh : ∀ p ∈ m, ¬ EqIC p.1 k) : AddPair m (k ++ ',' :: v) = m ++ [(k, v)] := by
  have hk0 : IsEmpty k = false := by
    cases k with
    | nil => exact absurd rfl hk.1
    | cons _ _ => rfl
  have hv0 : IsEmpty v = false := by
    cases v with
    | nil => exact absurd rfl hv.1
    | cons _ _ => rfl
  simp [AddPair, Split_delim ToUpper_comma k v hk.2.1, hk0, hv0, Emplace_fresh m k v hfresh]

theorem SplitLoop_Serialize (L : List (FString × FString)) (m : TMap) (fuel : Nat)
    (hfuel : L.length ≤ fuel) (hplain : ∀ p ∈ L, Plain p.1 ∧ Plain p.2)
    (hkeys : (m ++ L).Pairwise (fun p q => ¬ EqIC p.1 q.1)) :
    SplitLoop fuel (Serialize L) m = m ++ L := by
  induction L generalizing m fuel with
  | nil => cases fuel <;> simp [SplitLoop, Serialize, Split, Find, Stristr, INDEX_NONE]
  | cons hd L ih =>
    obtain ⟨k, v⟩ := hd
    obtain ⟨f, rfl⟩ : ∃ f, fuel = f + 1 := ⟨fuel - 1, by simp at hfuel; omega⟩
    obtain ⟨hk, hv⟩ := hplain (k, v) (List.mem_cons_self _ _)
    have hsemi : ';' ∉ k ++ ',' :: v := by
      simp only [List.mem_append, List.mem_cons, not_or]
      exact ⟨hk.2.2, by decide, hv.2.2⟩
    have hfresh : ∀ p ∈ m, ¬ EqIC p.1 k := by
      intro p hp
      exact (List.pairwise_append.mp hkeys).2.2 p hp (k, v) (List.mem_cons_self _ _)
    rw [Serialize_cons]
    simp only [SplitLoop, Split_delim ToUpper_semicolon _ _ hsemi]
    rw [AddPair_plain m k v hk hv hfresh,
      ih (m ++ [(k, v)]) f (by simp at hfuel; omega)
        (fun p hp => hplain p (List.mem_cons_of_mem _ hp)) (by simpa using hkeys)]
    simp

theorem RemoveFromStart_append (P S : FString) (hP : P ≠ []) :
    RemoveFromStart (P ++ S) P = some S := by
  have h0 : IsEmpty P = false := by
    cases P with
    | nil => exact absurd rfl hP
    | cons _ _ => rfl
  have h1 : StartsWith (P ++ S) P = true := by
    rw [StartsWith_iff]
    refine ⟨hP, by simp, ?_⟩
    simp [EqIC]
  simp [RemoveFromStart, h0, h1, Len, RemoveAt_zero]

/-- C1, as written, fails on the code.  The mapping with the two keys `a` and `A` is
written to the tag `T:a,1;A,2;`; parsing that tag returns the single pair `A`, `2`. -/
theorem GetKeyValuePairs_roundtrip_not_literal :
    (["a".toList, "A".toList] : List FString).Nodup ∧
    (∀ p ∈ [("a".toList, "1".toList), ("A".toList, "2".toList)], Plain p.1 ∧ Plain p.2) ∧
    GetKeyValuePairs
        ["T:".toList ++ Serialize [("a".toList, "1".toList), ("A".toList, "2".toList)]]
        "T:".toList = [("A".toList, "2".toList)] ∧
    ¬ ([("A".toList, "2".toList)] : TMap).Perm
        [("a".toList, "1".toList), ("A".toList, "2".toList)] := by
  decide

/-- C1, amended: the round trip holds for a mapping whose keys stay pairwise different when
letter case is ignored.  For a type `P` that is not empty, a list `M` of pairs with such
keys, all keys and values not empty and free of comma and semicolon, and any order `L` of
the pairs of `M`, parsing the one tag `P ++ Serialize L` with type `P` returns exactly the
pairs of `M`. -/
theorem GetKeyValuePairs_roundtrip (P : FString) (M L : List (FString × FString))
    (hP : P ≠ []) (hplain : ∀ p ∈ M, Plain p.1 ∧ Plain p.2)
    (hkeys : M.Pairwise (fun p q => ¬ EqIC p.1 q.1)) (hL : L.Perm M) :
    (GetKeyValuePairs [P ++ Serialize L] P).Perm M := by
  have hsym : ∀ p q : FString × FString, ¬ EqIC p.1 q.1 → ¬ EqIC q.1 p.1 :=
    fun p q h e => h e.symm
  have hkL : L.Pairwise (fun p q => ¬ EqIC p.1 q.1) :=
    (hL.pairwise_iff (fun {p q} h => hsym p q h)).mpr hkeys
  have hpL : ∀ p ∈ L, Plain p.1 ∧ Plain p.2 := fun p hp => hplain p (hL.subset hp)
  have hrun : GetKeyValuePairs [P ++ Serialize L] P = L := by
    simp only [GetKeyValuePairs, List.foldl_cons, List.foldl_nil, AddTag,
      RemoveFromStart_append P (Serialize L) hP]
    rw [SplitLoop_Serialize L [] _ (length_le_Serialize L) hpL (by simpa using hkL)]
    rfl
  rw [hrun]
  exact hL

/-- The amended C1 at the mapping `k1 ↦ v1`, `k2 ↦ v2`, written in the other order. -/
theorem GetKeyValuePairs_roundtrip_witness :
    (GetKeyValuePairs ["T:".toList ++ Serialize
        [("k2".toList, "v2".toList), ("k1".toList, "v1".toList)]] "T:".toList).Perm
      [("k1".toList, "v1".toList), ("k2".toList, "v2".toList)] :=
  GetKeyValuePairs_roundtrip "T:".toList
    [("k1".toList, "v1".toList), ("k2".toList, "v2".toList)]
    [("k2".toList, "v2".toList), ("k1".toList, "v1".toList)]
    (by decide) (by decide) (by decide) (by decide)

/-! ## Replace -/

theorem ReplaceLoop_acc (From To : FString) (fuel : Nat) (Travel Result : FString) :
    ReplaceLoop From To fuel Travel Result = Result ++ ReplaceLoop From To fuel Travel [] := by
  induction fuel generalizing Travel Result with
  | zero => simp [ReplaceLoop]
  | succ fuel ih =>
    unfold ReplaceLoop
    cases Stristr Travel From with
    | none => simp
    | some loc =>
      simp only
      rw [ih, ih _ ([] ++ _ ++ _)]
      simp

theorem split_at_match (s : FString) (loc n : Nat) :
    s = s.take loc ++ (s.drop loc).take n ++ s.drop (loc + n) := by
  rw [← List.drop_drop, List.append_assoc, List.take_append_drop, List.take_append_drop]

theorem ReplaceLoop_spec (From To : FString) (hF : From ≠ []) (fuel : Nat) (Travel : FString)
    (hfuel : Travel.length ≤ fuel) :
    ReplacedAll From To Travel (ReplaceLoop From To fuel Travel []) := by
  have hpos : 0 < From.length := List.length_pos.mpr hF
  induction fuel generalizing Travel with
  | zero =>
    have : Travel = [] := List.length_eq_zero.mp (by omega)
    subst this
    simp only [ReplaceLoop, List.append_nil]
    apply ReplacedAll.done
    rintro ⟨i, hi, _⟩
    simp only [List.length_nil] at hi; omega
  | succ fuel ih =>
    unfold ReplaceLoop
    cases hs : Stristr Travel From with
    | none =>
      simp only [List.nil_append]
      exact ReplacedAll.done _ (by
        rcases (Stristr_none_iff _ _).mp hs with h | h
        · exact absurd h hF
        · exact h)
    | some loc =>
      simp only
      obtain ⟨_, hread, hmin⟩ := (Stristr_some_iff _ _ _).mp hs
      rw [ReplaceLoop_acc]
      have hlen : (Travel.take loc).length = loc := by
        rw [List.length_take]; have := hread.1; omega
      have hrec := ih (Travel.drop (loc + From.length)) (by rw [List.length_drop]; omega)
      have hstep := ReplacedAll.step (v := To) (Travel.take loc)
        ((Travel.drop loc).take From.length) (Travel.drop (loc + From.length)) _ hread.2
        (by rw [← split_at_match, hlen]; exact hmin) hrec
      rw [← split_at_match] at hstep
      simpa using hstep

theorem ReplaceLoop_semicolon (From To : FString) (hF : From ≠ []) (hsemi : ';' ∉ From)
    (fuel : Nat) (x : FString) :
    ∃ R, ReplaceLoop From To fuel (';' :: x) [] = ';' :: R := by
  cases fuel with
  | zero => exact ⟨x, by simp [ReplaceLoop]⟩
  | succ fuel =>
    unfold ReplaceLoop
    cases hs : Stristr (';' :: x) From with
    | none => exact ⟨x, by simp⟩
    | some loc =>
      simp only
      rw [ReplaceLoop_acc]
      cases loc with
      | zero =>
        exfalso
        obtain ⟨_, ⟨_, hread⟩, _⟩ := (Stristr_some_iff _ _ _).mp hs
        cases From with
        | nil => exact hF rfl
        | cons f fs =>
          simp only [EqIC, List.drop_zero, List.length_cons, List.take_succ_cons, List.map_cons,
            List.cons.injEq] at hread
          have := (ToUpper_semicolon f).mp hread.1.symm
          exact hsemi (by simp [this])
      | succ l =>
        simp only [List.take_succ_cons, List.nil_append, List.cons_append]
        exact ⟨_, rfl⟩

theorem EqIC_length {a b : FString} (h : EqIC a b) : a.length = b.length := by
  have := congrArg List.length h
  simpa using this

theorem ReadsAt_middle (pre m post cur : FString) (h : EqIC m cur) :
    ReadsAt cur (pre ++ m ++ post) pre.length := by
  have hl := EqIC_length h
  refine ⟨by simp only [List.length_append]; omega, ?_⟩
  rw [List.append_assoc, List.drop_left, ← hl, List.take_left]
  exact h

theorem ReplacedAll_inv {cur v s o : FString} (h : ReplacedAll cur v s o) :
    (¬ Reads cur s ∧ o = s) ∨
    ∃ pre m post out, s = pre ++ m ++ post ∧ o = pre ++ v ++ out ∧ EqIC m cur ∧
      (∀ j, j < pre.length → ¬ ReadsAt cur s j) ∧ ReplacedAll cur v post out := by
  cases h with
  | done _ hn => exact Or.inl ⟨hn, rfl⟩
  | step pre m post out hm hmin hrec =>
    exact Or.inr ⟨pre, m, post, out, rfl, rfl, hm, hmin, hrec⟩

/-- The relation `ReplacedAll` determines the replaced text. -/
theorem ReplacedAll_unique {cur v s o1 o2 : FString} (h1 : ReplacedAll cur v s o1)
    (h2 : ReplacedAll cur v s o2) : o1 = o2 := by
  induction h1 generalizing o2 with
  | done s hn =>
    rcases ReplacedAll_inv h2 with ⟨_, h⟩ | ⟨pre, m, post, out, hs, _, hm, _, _⟩
    · exact h.symm
    · exact absurd ⟨pre.length, hs ▸ ReadsAt_middle pre m post cur hm⟩ hn
  | step pre m post out hm hmin hrec ih =>
    rcases ReplacedAll_inv h2 with ⟨hn, _⟩ | ⟨pre2, m2, post2, out2, hs, ho, hm2, hmin2, hrec2⟩
    · exact absurd ⟨pre.length, ReadsAt_middle pre m post cur hm⟩ hn
    · have hlen : pre.length = pre2.length := by
        rcases Nat.lt_trichotomy pre.length pre2.length with hlt | heq | hgt
        · exact absurd (ReadsAt_middle pre m post cur hm) (hmin2 _ hlt)
        · exact heq
        · exact absurd (hs ▸ ReadsAt_middle pre2 m2 post2 cur hm2) (hmin _ hgt)
      rw [List.append_assoc, List.append_assoc] at hs
      obtain ⟨hpre, hrest⟩ := List.append_inj hs hlen
      obtain ⟨hmm, hpost⟩ := List.append_inj hrest
        ((EqIC_length hm).trans (EqIC_length hm2).symm)
      subst hpre hpost
      rw [ho, ih hrec2]

/-- The search loop of `Replace` does not depend on the rounds it is given, once they are
as many as the text is long. -/
theorem ReplaceLoop_fuel (From To : FString) (hF : From ≠ []) (fuel : Nat) (Travel : FString)
    (hfuel : Travel.length ≤ fuel) :
    ReplaceLoop From To fuel Travel [] = ReplaceLoop From To Travel.length Travel [] :=
  ReplacedAll_unique (ReplaceLoop_spec From To hF fuel Travel hfuel)
    (ReplaceLoop_spec From To hF _ Travel (le_refl _))

/-! ## AddKeyValuePair on one tag: replacing -/

theorem GetKeyValue_ne_nil {InTag : FName} {TagKey : FString}
    (h : GetKeyValue InTag TagKey ≠ []) :
    ∃ p r, Stristr InTag TagKey = some p ∧
      Stristr (InTag.drop (p + TagKey.length + 1)) [';'] = some r ∧
      GetKeyValue InTag TagKey = (InTag.drop (p + TagKey.length + 1)).take r := by
  cases hs : Stristr InTag TagKey with
  | none => exact absurd (GetKeyValue_of_none hs) h
  | some p =>
    cases hr : Stristr (InTag.drop (p + TagKey.length + 1)) [';'] with
    | none =>
      exact absurd (by rw [GetKeyValue_of_some hs, Find_of_none hr, Left_none]) h
    | some r =>
      exact ⟨p, r, rfl, hr, by rw [GetKeyValue_of_some hs, Find_of_some hr, Left_natCast]⟩

/-- What a value that `GetKeyValue` returns looks like in the tag: it stands right after
the first match of the key and one more character, it holds no semicolon and a semicolon
follows it. -/
theorem GetKeyValue_shape {InTag : FName} {TagKey : FString}
    (h : GetKeyValue InTag TagKey ≠ []) :
    ∃ p rest, Stristr InTag TagKey = some p ∧
      p + TagKey.length + 1 ≤ InTag.length ∧
      InTag.drop (p + TagKey.length + 1) = GetKeyValue InTag TagKey ++ ';' :: rest ∧
      ';' ∉ GetKeyValue InTag TagKey := by
  obtain ⟨p, r, hs, hr, hval⟩ := GetKeyValue_ne_nil h
  obtain ⟨_, hread, hmin⟩ := (Stristr_some_iff _ _ _).mp hr
  rw [ReadsAt_semicolon] at hread
  have hrlt : r < (InTag.drop (p + TagKey.length + 1)).length := by
    by_contra hge
    rw [List.getElem?_eq_none (by omega)] at hread
    cases hread
  refine ⟨p, (InTag.drop (p + TagKey.length + 1)).drop (r + 1), hs, ?_, ?_, ?_⟩
  · rw [List.length_drop] at hrlt; omega
  · rw [hval]
    rw [List.getElem?_eq_getElem hrlt] at hread
    simp only [Option.some.injEq] at hread
    rw [← hread, List.getElem_cons_drop, List.take_append_drop]
  · rw [hval]
    intro hmem
    obtain ⟨j, hj⟩ := List.getElem?_of_mem hmem
    rw [List.getElem?_take] at hj
    by_cases hjr : j < r
    · rw [if_pos hjr] at hj
      exact hmin j hjr ((ReadsAt_semicolon _ _).mpr hj)
    · rw [if_neg hjr] at hj; cases hj

theorem GetKeyValue_reads {InTag : FName} {TagKey : FString}
    (h : GetKeyValue InTag TagKey ≠ []) : Reads (GetKeyValue InTag TagKey) InTag := by
  obtain ⟨p, rest, _, hle, hdrop, _⟩ := GetKeyValue_shape h
  refine ⟨p + TagKey.length + 1, ?_, ?_⟩
  · have := congrArg List.length hdrop
    simp only [List.length_drop, List.length_append, List.length_cons] at this
    omega
  · rw [hdrop, List.take_left]; rfl

/-- C5, as written, fails on the code.  In `Foo:X,1;Y,1;` the value of `X` is `1` and the
first `1` stands at index 6; the call replaces both occurrences of `1`, so its result is
not the text with the first occurrence alone replaced. -/
theorem AddKeyValuePair_replace_not_first :
    GetKeyValue "Foo:X,1;Y,1;".toList "X".toList = "1".toList ∧
    "Foo:X,1;Y,1;".toList.take 6 ++ "2".toList ++ "Foo:X,1;Y,1;".toList.drop 7 =
      "Foo:X,2;Y,1;".toList ∧
    AddKeyValuePair "Foo:X,1;Y,1;".toList "X".toList "2".toList true =
      ("Foo:X,2;Y,2;".toList, true) ∧
    "Foo:X,2;Y,2;".toList ≠ "Foo:X,2;Y,1;".toList := by
  decide

/-- C5, amended: when `GetKeyValue` reads a value `cur` for the key and `bReplaceExisting`
is true, `AddKeyValuePair` returns true, the tag reads `cur`, and the new tag is the old
one with every match of `cur` replaced by the new value (matches taken left to right,
without overlap, up to letter case) and every other character left as it was. -/
theorem AddKeyValuePair_replace (InTag : FName) (TagKey TagValue : FString)
    (h : GetKeyValue InTag TagKey ≠ []) :
    (AddKeyValuePair InTag TagKey TagValue true).2 = true ∧
    Reads (GetKeyValue InTag TagKey) InTag ∧
    ReplacedAll (GetKeyValue InTag TagKey) TagValue InTag
      (AddKeyValuePair InTag TagKey TagValue true).1 := by
  have hne : InTag ≠ [] := by
    rintro rfl
    exact h (by cases TagKey <;> rfl)
  have h1 : IsEmpty (GetKeyValue InTag TagKey) = false := by
    cases hc : GetKeyValue InTag TagKey with
    | nil => exact absurd hc h
    | cons _ _ => rfl
  have h2 : IsEmpty InTag = false := by
    cases InTag with
    | nil => exact absurd rfl hne
    | cons _ _ => rfl
  refine ⟨by simp [AddKeyValuePair, h1], GetKeyValue_reads h, ?_⟩
  simp only [AddKeyValuePair, h1, Bool.false_eq_true, if_false, if_true, Replace, h2,
    Bool.or_self]
  exact ReplaceLoop_spec _ _ h _ _ (le_refl _)

/-- The amended C5 at the tag `Foo:X,1;Y,1;` with key `X` and value `2`. -/
theorem AddKeyValuePair_replace_witness :
    (AddKeyValuePair "Foo:X,1;Y,1;".toList "X".toList "2".toList true).2 = true ∧
    Reads (GetKeyValue "Foo:X,1;Y,1;".toList "X".toList) "Foo:X,1;Y,1;".toList ∧
    ReplacedAll (GetKeyValue "Foo:X,1;Y,1;".toList "X".toList) "2".toList
      "Foo:X,1;Y,1;".toList
      (AddKeyValuePair "Foo:X,1;Y,1;".toList "X".toList "2".toList true).1 :=
  AddKeyValuePair_replace "Foo:X,1;Y,1;".toList "X".toList "2".toList (by decide)

/-! ## AddKeyValuePair, then GetKeyValue -/

theorem ReadsAt_append_left (A X k : FString) (j : Nat) (h : j + k.length ≤ A.length) :
    ReadsAt k (A ++ X) j ↔ ReadsAt k A j := by
  unfold ReadsAt
  rw [List.drop_append_of_le_length (by omega),
    List.take_append_of_le_length (by rw [List.length_drop]; omega), List.length_append]
  constructor
  · rintro ⟨_, h2⟩; exact ⟨h, h2⟩
  · rintro ⟨_, h2⟩; exact ⟨by omega, h2⟩

theorem Stristr_of_Find {s sub : FString} {q : Nat} (h : Find s sub = (q : Int)) :
    Stristr s sub = some q := by
  cases hs : Stristr s sub with
  | none => rw [Find_of_none hs] at h; simp [INDEX_NONE] at h
  | some i =>
    rw [Find_of_some hs] at h
    have : i = q := by exact_mod_cast h
    rw [this]

/-- C6, as written, fails on the code.  In `Foo:X1,1;` the key `X1` has the value `1`;
replacing it by `2` rewrites the key as well, the tag becomes `Foo:X2,2;`, and the key `X1`
has no value in it. -/
theorem AddKeyValuePair_then_GetKeyValue_fails :
    "X1".toList ≠ [] ∧ Plain "2".toList ∧
    GetKeyValue "Foo:X1,1;".toList "X1".toList = "1".toList ∧
    AddKeyValuePair "Foo:X1,1;".toList "X1".toList "2".toList true =
      ("Foo:X2,2;".toList, true) ∧
    GetKeyValue (AddKeyValuePair "Foo:X1,1;".toList "X1".toList "2".toList true).1
      "X1".toList = [] := by
  decide

/-- C6, amended: set-then-get holds when the value being replaced is not read earlier in
the tag.  For a key that is not empty and a new value that is not empty and free of comma
and semicolon, if `GetKeyValue` reads a value `cur` for the key and the first place where
the tag reads `cur` (letter case ignored) is the place `GetKeyValue` took it from, then
after `AddKeyValuePair` with `bReplaceExisting` true `GetKeyValue` returns the new value. -/
theorem AddKeyValuePair_then_GetKeyValue (InTag : FName) (TagKey TagValue : FString)
    (hk : TagKey ≠ []) (hv : Plain TagValue) (hcur : GetKeyValue InTag TagKey ≠ [])
    (hfirst : Find InTag (GetKeyValue InTag TagKey) = Find InTag TagKey + Len TagKey + 1) :
    GetKeyValue (AddKeyValuePair InTag TagKey TagValue true).1 TagKey = TagValue := by
  obtain ⟨p, rest, hs, hle, hdrop, hsemi⟩ := GetKeyValue_shape hcur
  obtain ⟨_, hread, hmin⟩ := (Stristr_some_iff _ _ _).mp hs
  have hq : Stristr InTag (GetKeyValue InTag TagKey) = some (p + TagKey.length + 1) := by
    apply Stristr_of_Find
    rw [hfirst, Find_of_some hs]; simp [Len]
  have hA : (InTag.take (p + TagKey.length + 1)).length = p + TagKey.length + 1 := by
    rw [List.length_take]; omega
  have hsplit : InTag = InTag.take (p + TagKey.length + 1) ++
      (GetKeyValue InTag TagKey ++ ';' :: rest) := by
    rw [← hdrop, List.take_append_drop]
  obtain ⟨n, hn⟩ : ∃ n, InTag.length = n + 1 := ⟨InTag.length - 1, by omega⟩
  have h1 : IsEmpty (GetKeyValue InTag TagKey) = false := by
    cases hc : GetKeyValue InTag TagKey with
    | nil => exact absurd hc hcur
    | cons _ _ => rfl
  have h2 : IsEmpty InTag = false := by
    cases InTag with
    | nil => simp at hn
    | cons _ _ => rfl
  have htail : InTag.drop (p + TagKey.length + 1 + (GetKeyValue InTag TagKey).length) =
      ';' :: rest := by
    rw [← List.drop_drop, hdrop, List.drop_left]
  obtain ⟨R, hR⟩ := ReplaceLoop_semicolon (GetKeyValue InTag TagKey) TagValue hcur hsemi n rest
  have hnew : (AddKeyValuePair InTag TagKey TagValue true).1 =
      InTag.take (p + TagKey.length + 1) ++ (TagValue ++ ';' :: R) := by
    simp only [AddKeyValuePair, h1, Bool.false_eq_true, if_false, if_true, Replace, h2,
      Bool.or_self, hn, ReplaceLoop, hq, htail]
    rw [ReplaceLoop_acc, hR]
    simp
  have hp : Stristr (AddKeyValuePair InTag TagKey TagValue true).1 TagKey = some p := by
    rw [hnew]
    apply Stristr_first hk
    · rw [ReadsAt_append_left _ _ _ _ (by omega)]
      rw [hsplit, ReadsAt_append_left _ _ _ _ (by omega)] at hread
      exact hread
    · intro j hj hr
      apply hmin j hj
      rw [ReadsAt_append_left _ _ _ _ (by omega)] at hr
      rw [hsplit, ReadsAt_append_left _ _ _ _ (by omega)]
      exact hr
  rw [GetKeyValue_of_some hp, hnew, List.drop_left' hA,
    Find_of_some (Stristr_delim ToUpper_semicolon TagValue R hv.2.2), Left_natCast,
    List.take_left]

/-- The amended C6 at the tag `Foo:X,1;` with key `X` and value `2`. -/
theorem AddKeyValuePair_then_GetKeyValue_witness :
    GetKeyValue (AddKeyValuePair "Foo:X,1;".toList "X".toList "2".toList true).1
      "X".toList = "2".toList :=
  AddKeyValuePair_then_GetKeyValue "Foo:X,1;".toList "X".toList "2".toList
    (by decide) (by decide) (by decide) (by decide)

/-! ## The reference notions, in terms of substrings -/

/-- `Reads k t` says that some contiguous substring of `t` equals `k` up to letter case. -/
theorem Reads_iff_substring (k t : FString) : Reads k t ↔ ∃ m, m <:+: t ∧ EqIC m k := by
  constructor
  · rintro ⟨i, _, hi⟩
    exact ⟨(t.drop i).take k.length,
      ⟨t.take i, t.drop (i + k.length), (split_at_match t i k.length).symm⟩, hi⟩
  · rintro ⟨m, ⟨a, b, hab⟩, hm⟩
    exact ⟨a.length, hab ▸ ReadsAt_middle a m b k hm⟩

/-- `StartsIC p t` says that `p` is not empty and some initial segment of `t` equals `p` up
to letter case. -/
theorem StartsIC_iff_initial (p t : FString) :
    StartsIC p t ↔ p ≠ [] ∧ ∃ m, m <+: t ∧ EqIC m p := by
  unfold StartsIC
  constructor
  · rintro ⟨hp, _, hi⟩
    exact ⟨hp, t.take p.length, List.take_prefix _ _, by simpa using hi⟩
  · rintro ⟨hp, m, ⟨b, hb⟩, hm⟩
    refine ⟨hp, ?_⟩
    have := ReadsAt_middle [] m b p hm
    simpa [hb] using this

/-! ## Splitting, read backwards -/

theorem Stristr_delim_inv {d : Char} (hd : ∀ c, ToUpper c = ToUpper d ↔ c = d) {s : FString}
    {i : Nat} (h : Stristr s [d] = some i) :
    s = s.take i ++ d :: s.drop (i + 1) ∧ d ∉ s.take i ∧ i < s.length := by
  obtain ⟨_, hread, hmin⟩ := (Stristr_some_iff _ _ _).mp h
  rw [ReadsAt_delim hd] at hread
  have hi : i < s.length := by
    by_contra hge
    rw [List.getElem?_eq_none (by omega)] at hread
    cases hread
  rw [List.getElem?_eq_getElem hi] at hread
  simp only [Option.some.injEq] at hread
  refine ⟨?_, ?_, hi⟩
  · rw [← hread, List.getElem_cons_drop, List.take_append_drop]
  · intro hmem
    obtain ⟨j, hj⟩ := List.getElem?_of_mem hmem
    rw [List.getElem?_take] at hj
    by_cases hji : j < i
    · rw [if_pos hji] at hj
      exact hmin j hji ((ReadsAt_delim hd _ _).mpr hj)
    · rw [if_neg hji] at hj; cases hj

theorem Split_delim_inv {d : Char} (hd : ∀ c, ToUpper c = ToUpper d ↔ c = d) {s a b : FString}
    (h : Split s [d] = some (a, b)) : s = a ++ d :: b ∧ d ∉ a := by
  unfold Split at h
  cases hs : Stristr s [d] with
  | none => simp [Find_of_none hs, INDEX_NONE] at h
  | some i =>
    obtain ⟨h1, h2, _⟩ := Stristr_delim_inv hd hs
    have hn : ¬ ((i : Int) < 0) := by omega
    have hm : (i : Int) + Len [d] = ((i + 1 : Nat) : Int) := by simp [Len]
    simp only [Find_of_some hs, hn, if_false, hm, Left_natCast, Mid_natCast, Option.some.injEq,
      Prod.mk.injEq] at h
    rw [← h.1, ← h.2]
    exact ⟨h1, h2⟩

theorem Split_delim_iff {d : Char} (hd : ∀ c, ToUpper c = ToUpper d ↔ c = d) (s a b : FString) :
    Split s [d] = some (a, b) ↔ s = a ++ d :: b ∧ d ∉ a :=
  ⟨Split_delim_inv hd, fun h => h.1 ▸ Split_delim hd a b h.2⟩

theorem Split_delim_eq_none {d : Char} (hd : ∀ c, ToUpper c = ToUpper d ↔ c = d) (s : FString) :
    Split s [d] = none ↔ d ∉ s := by
  constructor
  · intro h hmem
    obtain ⟨a, b, hab⟩ := List.append_of_mem hmem
    obtain ⟨i, hi⟩ := List.getElem?_of_mem hmem
    have hr : Reads [d] s := ⟨i, (ReadsAt_delim hd s i).mpr hi⟩
    have hne : Stristr s [d] ≠ none := by
      rw [ne_eq, Stristr_none_iff]; simp [hr]
    cases hs : Stristr s [d] with
    | none => exact hne hs
    | some j =>
      have hn : ¬ ((j : Int) < 0) := by omega
      simp [Split, Find_of_some hs, hn] at h
  · exact Split_delim_none hd s

/-! ## The loop of GetKeyValuePairs on a payload -/

theorem ParsePayload_none {CurrTag : FString} (m : TMap) (h : Split CurrTag [';'] = none) :
    ParsePayload CurrTag m = m := by
  unfold ParsePayload
  cases CurrTag.length <;> simp [SplitLoop, h]

theorem ParsePayload_some {CurrTag CurrPair rest : FString} (m : TMap)
    (h : Split CurrTag [';'] = some (CurrPair, rest)) :
    ParsePayload CurrTag m = ParsePayload rest (AddPair m CurrPair) := by
  have hlt : rest.length < CurrTag.length := by
    rcases Split_length h with h1 | h1
    · exact h1
    · cases h1
  unfold ParsePayload
  obtain ⟨n, hn⟩ : ∃ n, CurrTag.length = n + 1 := ⟨CurrTag.length - 1, by omega⟩
  rw [hn]
  simp only [SplitLoop, h]
  exact SplitLoop_fuel n rest _ (by omega)

theorem ParsePayload_cons (a b : FString) (m : TMap) (ha : ';' ∉ a) :
    ParsePayload (a ++ ';' :: b) m = ParsePayload b (AddPair m a) :=
  ParsePayload_some m (Split_delim ToUpper_semicolon a b ha)

theorem ParsePayload_no_semicolon (r : FString) (m : TMap) (hr : ';' ∉ r) :
    ParsePayload r m = m :=
  ParsePayload_none m (Split_delim_none ToUpper_semicolon r hr)

theorem AddTag_append (P S : FString) (m : TMap) (hP : P ≠ []) :
    AddTag P m (P ++ S) = ParsePayload S m := by
  simp [AddTag, RemoveFromStart_append P S hP, ParsePayload]

theorem GetKeyValuePairs_single (P S : FString) (hP : P ≠ []) :
    GetKeyValuePairs [P ++ S] P = ParsePayload S [] := by
  simp [GetKeyValuePairs, AddTag_append P S [] hP]

theorem EndsFragment_split {s : FString} (hs : EndsFragment s) (hne : s ≠ []) :
    ∃ a b, s = a ++ ';' :: b ∧ ';' ∉ a ∧ EndsFragment b ∧ b.length < s.length := by
  have hlast : s.getLast? = some ';' := by
    rcases hs with h | h
    · exact absurd h hne
    · exact h
  have hmem : ';' ∈ s := List.mem_of_getLast?_eq_some hlast
  have hsome : Split s [';'] ≠ none := by
    rw [ne_eq, Split_delim_eq_none ToUpper_semicolon]; exact not_not.mpr hmem
  cases hsp : Split s [';'] with
  | none => exact absurd hsp hsome
  | some pr =>
    obtain ⟨a, b⟩ := pr
    obtain ⟨hab, ha⟩ := Split_delim_inv ToUpper_semicolon hsp
    refine ⟨a, b, hab, ha, ?_, ?_⟩
    · by_cases hb : b = []
      · exact Or.inl hb
      · right
        rw [hab, show a ++ ';' :: b = (a ++ [';']) ++ b by simp,
          List.getLast?_append_of_ne_nil _ hb] at hlast
        exact hlast
    · rw [hab]; simp only [List.length_append, List.length_cons]; omega

theorem ParsePayload_append (s x : FString) (m : TMap) (hs : EndsFragment s) :
    ParsePayload (s ++ x) m = ParsePayload x (ParsePayload s m) := by
  suffices h : ∀ n (s : FString) (m : TMap), s.length = n → EndsFragment s →
      ParsePayload (s ++ x) m = ParsePayload x (ParsePayload s m) from h _ s m rfl hs
  intro n
  induction n using Nat.strong_induction_on with
  | _ n ih =>
    intro s m hn hs
    by_cases hne : s = []
    · subst hne
      have e : ParsePayload [] m = m := rfl
      rw [List.nil_append, e]
    · obtain ⟨a, b, hab, ha, hb, hlt⟩ := EndsFragment_split hs hne
      subst hab
      rw [List.append_assoc, List.cons_append, ParsePayload_cons a (b ++ x) m ha,
        ParsePayload_cons a b m ha]
      exact ih b.length (by omega) b _ rfl hb

/-! ## GetKeyValuePairs: what is kept and what is skipped -/

theorem mem_Emplace_cases (m : TMap) (a v : FString) (p : FString × FString)
    (h : p ∈ Emplace m a v) : p = (a, v) ∨ p ∈ m := by
  induction m with
  | nil => simpa [Emplace] using h
  | cons hd m ih =>
    obtain ⟨k0, v0⟩ := hd
    unfold Emplace at h
    by_cases h0 : KeyEq k0 a = true
    · rw [if_pos h0] at h
      rcases List.mem_cons.mp h with h | h
      · exact Or.inl h
      · exact Or.inr (List.mem_cons_of_mem _ h)
    · rw [if_neg h0] at h
      rcases List.mem_cons.mp h with h | h
      · exact Or.inr (h ▸ List.mem_cons_self _ _)
      · rcases ih h with h | h
        · exact Or.inl h
        · exact Or.inr (List.mem_cons_of_mem _ h)

theorem IsEmpty_eq_false_iff (s : FString) : IsEmpty s = false ↔ s ≠ [] := by
  cases s <;> simp [IsEmpty]

theorem AddPair_cases (m : TMap) (CurrPair : FString) :
    AddPair m CurrPair = m ∨
    ∃ k v, CurrPair = k ++ ',' :: v ∧ ',' ∉ k ∧ k ≠ [] ∧ v ≠ [] ∧
      AddPair m CurrPair = Emplace m k v := by
  unfold AddPair
  cases hs : Split CurrPair [','] with
  | none => exact Or.inl rfl
  | some kv =>
    obtain ⟨k, v⟩ := kv
    obtain ⟨hkv, hk⟩ := Split_delim_inv ToUpper_comma hs
    by_cases h : (!IsEmpty k && !IsEmpty v) = true
    · right
      have h' := h
      simp only [Bool.and_eq_true, Bool.not_eq_true', IsEmpty_eq_false_iff] at h'
      exact ⟨k, v, hkv, hk, h'.1, h'.2, by simp only [h, if_true]⟩
    · left; simp [h]

theorem AddPair_wellFormed (m : TMap) (CurrPair : FString) (hsemi : ';' ∉ CurrPair)
    (hm : ∀ p ∈ m, WellFormedPair p) : ∀ p ∈ AddPair m CurrPair, WellFormedPair p := by
  rcases AddPair_cases m CurrPair with h | ⟨k, v, hkv, hk, hk0, hv0, h⟩
  · rw [h]; exact hm
  · rw [h]
    intro p hp
    rcases mem_Emplace_cases m k v p hp with rfl | hp
    · rw [hkv] at hsemi
      simp only [List.mem_append, List.mem_cons, not_or] at hsemi
      exact ⟨hk0, hk, hsemi.1, hv0, hsemi.2.2⟩
    · exact hm p hp

theorem SplitLoop_wellFormed (fuel : Nat) (CurrTag : FString) (m : TMap)
    (hm : ∀ p ∈ m, WellFormedPair p) : ∀ p ∈ SplitLoop fuel CurrTag m, WellFormedPair p := by
  induction fuel generalizing CurrTag m with
  | zero => exact hm
  | succ fuel ih =>
    unfold SplitLoop
    cases hs : Split CurrTag [';'] with
    | none => exact hm
    | some pr =>
      obtain ⟨CurrPair, rest⟩ := pr
      obtain ⟨_, hsemi⟩ := Split_delim_inv ToUpper_semicolon hs
      exact ih rest _ (AddPair_wellFormed m CurrPair hsemi hm)

theorem AddTag_wellFormed (TagType : FString) (m : TMap) (TagItr : FName)
    (hm : ∀ p ∈ m, WellFormedPair p) : ∀ p ∈ AddTag TagType m TagItr, WellFormedPair p := by
  unfold AddTag
  cases RemoveFromStart TagItr TagType with
  | none => exact hm
  | some CurrTag => exact SplitLoop_wellFormed _ _ m hm

theorem foldl_AddTag_wellFormed (TagType : FString) (InTags : List FName) (m : TMap)
    (hm : ∀ p ∈ m, WellFormedPair p) :
    ∀ p ∈ InTags.foldl (AddTag TagType) m, WellFormedPair p := by
  induction InTags generalizing m with
  | nil => exact hm
  | cons t rest ih => exact ih _ (AddTag_wellFormed TagType m t hm)

/-- C11: every pair `GetKeyValuePairs` returns is well formed.  Its key is not empty and
holds neither comma nor semicolon; its value is not empty and holds no semicolon. -/
theorem GetKeyValuePairs_wellFormed (InTags : List FName) (TagType : FString) :
    ∀ p ∈ GetKeyValuePairs InTags TagType,
      p.1 ≠ [] ∧ ',' ∉ p.1 ∧ ';' ∉ p.1 ∧ p.2 ≠ [] ∧ ';' ∉ p.2 :=
  foldl_AddTag_wellFormed TagType InTags [] (fun _ h => absurd h (List.not_mem_nil _))

/-- C11 at the tag `T:a,1;;x;b,2,3;`: the pair `b`, `2,3` is returned, and it is well
formed (its value may hold a comma). -/
theorem GetKeyValuePairs_wellFormed_witness :
    ("b".toList, "2,3".toList) ∈ GetKeyValuePairs ["T:a,1;;x;b,2,3;".toList] "T:".toList ∧
    ("b".toList ≠ [] ∧ ',' ∉ "b".toList ∧ ';' ∉ "b".toList ∧ "2,3".toList ≠ [] ∧
      ';' ∉ "2,3".toList) :=
  ⟨by decide,
    GetKeyValuePairs_wellFormed ["T:a,1;;x;b,2,3;".toList] "T:".toList
      ("b".toList, "2,3".toList) (by decide)⟩

theorem AddPair_malformed (m : TMap) (f : FString) (hf : Malformed f) : AddPair m f = m := by
  rcases AddPair_cases m f with h | ⟨k, v, hkv, hk, hk0, hv0, _⟩
  · exact h
  · exfalso
    rcases hf with h | h | ⟨h1, h2⟩
    · exact h (by rw [hkv]; simp)
    · rw [hkv] at h
      cases k with
      | nil => exact hk0 rfl
      | cons c k =>
        simp only [List.cons_append, List.head?_cons, Option.some.injEq] at h
        exact hk (by simp [h])
    · rw [hkv, show k ++ ',' :: v = (k ++ [',']) ++ v by simp] at h2
      rw [List.dropLast_append_of_ne_nil _ hv0] at h2
      exact h2 (by simp)

/-- C12: a malformed fragment is skipped.  For a type `P` that is not empty, a text `s` that
is empty or ends with a semicolon, a fragment `f` without semicolon that holds no comma, or
starts with its first comma, or ends with its first comma, and any text `r`, parsing the
tag `P ++ s ++ f ++ ";" ++ r` gives the same map as parsing the tag `P ++ s ++ r`. -/
theorem GetKeyValuePairs_skips_malformed (P s f r : FString) (hP : P ≠ [])
    (hs : EndsFragment s) (hf : ';' ∉ f) (hmal : Malformed f) :
    GetKeyValuePairs [P ++ s ++ f ++ [';'] ++ r] P = GetKeyValuePairs [P ++ s ++ r] P := by
  have e1 : P ++ s ++ f ++ [';'] ++ r = P ++ (s ++ (f ++ ';' :: r)) := by simp
  have e2 : P ++ s ++ r = P ++ (s ++ r) := by simp
  rw [e1, e2, GetKeyValuePairs_single _ _ hP, GetKeyValuePairs_single _ _ hP,
    ParsePayload_append _ _ _ hs, ParsePayload_append _ _ _ hs, ParsePayload_cons _ _ _ hf,
    AddPair_malformed _ _ hmal]

/-- C12 at the tag `T:a,1;` ++ `f` ++ `;b,2;` for a fragment without comma, one without key
and one without value: each parses like `T:a,1;b,2;`. -/
theorem GetKeyValuePairs_skips_malformed_witness :
    GetKeyValuePairs ["T:a,1;xyz;b,2;".toList] "T:".toList =
      GetKeyValuePairs ["T:a,1;b,2;".toList] "T:".toList ∧
    GetKeyValuePairs ["T:a,1;,z;b,2;".toList] "T:".toList =
      GetKeyValuePairs ["T:a,1;b,2;".toList] "T:".toList ∧
    GetKeyValuePairs ["T:a,1;x,;b,2;".toList] "T:".toList =
      GetKeyValuePairs ["T:a,1;b,2;".toList] "T:".toList :=
  ⟨GetKeyValuePairs_skips_malformed "T:".toList "a,1;".toList "xyz".toList "b,2;".toList
      (by decide) (by decide) (by decide) (by decide),
    GetKeyValuePairs_skips_malformed "T:".toList "a,1;".toList ",z".toList "b,2;".toList
      (by decide) (by decide) (by decide) (by decide),
    GetKeyValuePairs_skips_malformed "T:".toList "a,1;".toList "x,".toList "b,2;".toList
      (by decide) (by decide) (by decide) (by decide)⟩

/-- C20: a trailing fragment without its semicolon is ignored.  For a type `P` that is not
empty, a text `s` that is empty or ends with a semicolon, and a text `r` without semicolon,
parsing the tag `P ++ s ++ r` gives the same map as parsing the tag `P ++ s`. -/
theorem GetKeyValuePairs_ignores_unterminated (P s r : FString) (hP : P ≠ [])
    (hs : EndsFragment s) (hr : ';' ∉ r) :
    GetKeyValuePairs [P ++ s ++ r] P = GetKeyValuePairs [P ++ s] P := by
  have e2 : P ++ s ++ r = P ++ (s ++ r) := by simp
  rw [e2, GetKeyValuePairs_single _ _ hP, GetKeyValuePairs_single _ _ hP,
    ParsePayload_append _ _ _ hs, ParsePayload_no_semicolon r _ hr]

/-- C20 at the tag `T:k1,v1;k2,v2`: it parses like `T:k1,v1;`, to the one pair `k1`, `v1`. -/
theorem GetKeyValuePairs_ignores_unterminated_witness :
    GetKeyValuePairs ["T:k1,v1;k2,v2".toList] "T:".toList =
      [("k1".toList, "v1".toList)] :=
  (GetKeyValuePairs_ignores_unterminated "T:".toList "k1,v1;".toList "k2,v2".toList
    (by decide) (by decide) (by decide)).trans (by decide)

theorem GetKeyValuePairs_Serialize (P : FString) (L : List (FString × FString)) (hP : P ≠ [])
    (hplain : ∀ p ∈ L, Plain p.1 ∧ Plain p.2) (hkeys : UniqueKeys L) :
    GetKeyValuePairs [P ++ Serialize L] P = L := by
  rw [GetKeyValuePairs_single _ _ hP]
  unfold ParsePayload
  rw [SplitLoop_Serialize L [] _ (length_le_Serialize L) hplain (by simpa using hkeys)]
  rfl

/-- C13: the code misses what the claim and the header's own example say.  Called with the
type `T`, the tag `T:k1,v1;k2,v2;` gives the keys `:k1` and `k2`, not `k1` and `k2`: the
colon stays with the first key.  The header's example of a correctly written tag,
`TagType:Key1,Value1;Key2,Value2;Key3,Value3;`, parsed with the type `TagType` it names,
gives the key `:Key1`; with the same type, `GetKeyValue` and `HasKey` on the tag array find
`Key1` and its value `Value1`. -/
theorem GetKeyValuePairs_keeps_colon :
    GetKeyValuePairs ["T:k1,v1;k2,v2;".toList] "T".toList =
      [(":k1".toList, "v1".toList), ("k2".toList, "v2".toList)] ∧
    GetKeyValuePairs ["TagType:Key1,Value1;Key2,Value2;Key3,Value3;".toList]
        "TagType".toList =
      [(":Key1".toList, "Value1".toList), ("Key2".toList, "Value2".toList),
        ("Key3".toList, "Value3".toList)] ∧
    TMap.Find (GetKeyValuePairs ["TagType:Key1,Value1;Key2,Value2;Key3,Value3;".toList]
        "TagType".toList) "Key1".toList = none ∧
    GetKeyValue_Tags ["TagType:Key1,Value1;Key2,Value2;Key3,Value3;".toList]
        "TagType".toList "Key1".toList = some "Value1".toList ∧
    HasKey_Tags ["TagType:Key1,Value1;Key2,Value2;Key3,Value3;".toList]
        "TagType".toList "Key1".toList = some true := by
  decide

/-- What the parser returns when the colon is passed along with the type name: for keys and
values that are not empty and free of comma and semicolon, the keys being different even
when letter case is ignored, the tag `T:k1,v1;k2,v2;` parsed with `T:` gives exactly the
pairs `k1`, `v1` and `k2`, `v2`. -/
theorem GetKeyValuePairs_with_colon (T k1 v1 k2 v2 : FString) (hT : T ≠ [])
    (hk1 : Plain k1) (hv1 : Plain v1) (hk2 : Plain k2) (hv2 : Plain v2)
    (hne : ¬ EqIC k1 k2) :
    GetKeyValuePairs
        [T ++ [':'] ++ k1 ++ [','] ++ v1 ++ [';'] ++ k2 ++ [','] ++ v2 ++ [';']]
        (T ++ [':']) = [(k1, v1), (k2, v2)] := by
  have e : T ++ [':'] ++ k1 ++ [','] ++ v1 ++ [';'] ++ k2 ++ [','] ++ v2 ++ [';'] =
      (T ++ [':']) ++ Serialize [(k1, v1), (k2, v2)] := by simp [Serialize]
  rw [e]
  apply GetKeyValuePairs_Serialize _ _ (List.append_ne_nil_of_left_ne_nil hT _)
  · intro p hp
    simp only [List.mem_cons, List.mem_singleton, List.not_mem_nil, or_false] at hp
    rcases hp with rfl | rfl
    · exact ⟨hk1, hv1⟩
    · exact ⟨hk2, hv2⟩
  · simp [UniqueKeys, hne]

/-! ## GetKeyValuePairs: the empty map -/

theorem RemoveFromStart_eq_some {t P cur : FString} (h : RemoveFromStart t P = some cur) :
    StartsWith t P = true ∧ cur = t.drop P.length := by
  unfold RemoveFromStart at h
  by_cases h0 : IsEmpty P = true
  · simp [h0] at h
  · by_cases h1 : StartsWith t P = true
    · simp only [h0, h1, Bool.false_eq_true, if_false, if_true, Option.some.injEq] at h
      refine ⟨h1, ?_⟩
      rw [← h]
      exact RemoveAt_zero t P.length
    · simp [h0, h1] at h

theorem RemoveFromStart_eq_none {t P : FString} (h : StartsWith t P = false) :
    RemoveFromStart t P = none := by
  unfold RemoveFromStart
  by_cases h0 : IsEmpty P = true <;> simp [h0, h]

theorem EndsFragment_cons_semicolon (a b : FString) (hb : EndsFragment b) :
    EndsFragment (a ++ ';' :: b) := by
  right
  rcases hb with rfl | hb
  · simp
  · have hne : b ≠ [] := by rintro rfl; simp at hb
    rw [show a ++ ';' :: b = (a ++ [';']) ++ b by simp, List.getLast?_append_of_ne_nil _ hne]
    exact hb

theorem ParsePayload_no_good (CurrTag : FString) (m : TMap)
    (h : ∀ f, IsFragment f CurrTag → ¬ GoodFragment f) : ParsePayload CurrTag m = m := by
  suffices hall : ∀ n (cur : FString), cur.length = n →
      (∀ f, IsFragment f cur → ¬ GoodFragment f) → ParsePayload cur m = m from
    hall _ CurrTag rfl h
  intro n
  induction n using Nat.strong_induction_on with
  | _ n ih =>
    intro cur hn hcur
    cases hs : Split cur [';'] with
    | none => exact ParsePayload_none m hs
    | some pr =>
      obtain ⟨CurrPair, rest⟩ := pr
      obtain ⟨hab, ha⟩ := Split_delim_inv ToUpper_semicolon hs
      have hpair : AddPair m CurrPair = m := by
        rcases AddPair_cases m CurrPair with h1 | ⟨k, v, hkv, hk, hk0, hv0, _⟩
        · exact h1
        · exact absurd ⟨k, v, hkv, hk, hk0, hv0⟩
            (hcur CurrPair ⟨[], rest, by simpa using hab, Or.inl rfl, ha⟩)
      rw [ParsePayload_some m hs, hpair]
      apply ih rest.length (by rw [← hn, hab, List.length_append, List.length_cons]; omega)
        rest rfl
      rintro f ⟨a, b, hrest, hea, hf⟩
      exact hcur f ⟨CurrPair ++ ';' :: a, b, by rw [hab, hrest]; simp,
        EndsFragment_cons_semicolon _ _ hea, hf⟩

theorem foldl_AddTag_nil (TagType : FString) (InTags : List FName)
    (h : ∀ t ∈ InTags, AddTag TagType [] t = []) : InTags.foldl (AddTag TagType) [] = [] := by
  induction InTags with
  | nil => rfl
  | cons t rest ih =>
    rw [List.foldl_cons, h t (List.mem_cons_self _ _)]
    exact ih (fun u hu => h u (List.mem_cons_of_mem _ hu))

/-- C14: `GetKeyValuePairs` fails silently.  It returns the empty map when
`GetTagTypeIndex` returns `INDEX_NONE`, so for the empty array; and it returns the empty
map when no tag that passes the type test holds a fragment with a key and a value. -/
theorem GetKeyValuePairs_empty (InTags : List FName) (TagType : FString) :
    (GetTagTypeIndex InTags TagType = INDEX_NONE → GetKeyValuePairs InTags TagType = []) ∧
    GetKeyValuePairs [] TagType = [] ∧
    ((∀ t ∈ InTags, StartsWith t TagType = true →
        ∀ f, IsFragment f (t.drop TagType.length) → ¬ GoodFragment f) →
      GetKeyValuePairs InTags TagType = []) := by
  refine ⟨?_, rfl, ?_⟩
  · intro h
    apply foldl_AddTag_nil
    intro t ht
    rcases GetTagTypeIndex_cases InTags TagType with ⟨_, h2⟩ | ⟨k, h1, _, _⟩
    · have hst : StartsWith t TagType = false := by
        cases hb : StartsWith t TagType
        · rfl
        · exact absurd ((StartsWith_iff _ _).mp hb) (h2 t ht)
      simp [AddTag, RemoveFromStart_eq_none hst]
    · rw [h1] at h; simp [INDEX_NONE] at h
  · intro h
    apply foldl_AddTag_nil
    intro t ht
    unfold AddTag
    cases hr : RemoveFromStart t TagType with
    | none => rfl
    | some cur =>
      obtain ⟨hst, hcur⟩ := RemoveFromStart_eq_some hr
      subst hcur
      exact ParsePayload_no_good _ [] (h t ht hst)

/-- C14 at the tags `T:abc`, `U:k,v;` and the type `T:`: the first tag passes the type test
and holds no fragment, the second does not pass it; the map is empty. -/
theorem GetKeyValuePairs_empty_witness :
    GetKeyValuePairs ["T:abc".toList, "U:k,v;".toList] "T:".toList = [] := by
  apply (GetKeyValuePairs_empty ["T:abc".toList, "U:k,v;".toList] "T:".toList).2.2
  intro t ht hst f hfrag
  obtain ⟨a, b, hcur, _, _⟩ := hfrag
  have hmem : ';' ∈ t.drop "T:".toList.length := by rw [hcur]; simp
  simp only [List.mem_cons, List.mem_singleton, List.not_mem_nil, or_false] at ht
  rcases ht with rfl | rfl
  · exact absurd hmem (by decide)
  · exact absurd hst (by decide)

/-! ## HasKey and GetKeyValue on a tag array -/

theorem TArrayAt_natCast (a : List FName) (i : Nat) : TArrayAt a (i : Int) = a[i]? := by
  simp [TArrayAt]

theorem HasKey_Tags_of_index {InTags : List FName} {TagType : FString} {i : Nat} {t : FName}
    (TagKey : FString) (hi : GetTagTypeIndex InTags TagType = (i : Int))
    (ht : InTags[i]? = some t) : HasKey_Tags InTags TagType TagKey = some (HasKey t TagKey) := by
  have hne : (i : Int) ≠ INDEX_NONE := by simp [INDEX_NONE]
  simp [HasKey_Tags, hi, hne, TArrayAt_natCast, ht]

theorem GetKeyValue_Tags_of_index {InTags : List FName} {TagType : FString} {i : Nat}
    {t : FName} (TagKey : FString) (hi : GetTagTypeIndex InTags TagType = (i : Int))
    (ht : InTags[i]? = some t) :
    GetKeyValue_Tags InTags TagType TagKey = some (GetKeyValue t TagKey) := by
  have hne : (i : Int) ≠ INDEX_NONE := by simp [INDEX_NONE]
  simp [GetKeyValue_Tags, hi, hne, TArrayAt_natCast, ht]

theorem GetTagTypeIndex_congr {InTags Other : List FName} {TagType : FString} {i : Nat}
    (hi : GetTagTypeIndex InTags TagType = (i : Int))
    (hsame : ∀ j, j ≤ i → Other[j]? = InTags[j]?) :
    GetTagTypeIndex Other TagType = (i : Int) := by
  rcases GetTagTypeIndex_cases InTags TagType with ⟨h1, _⟩ | ⟨k, h1, ⟨t, ht, hst⟩, h3⟩
  · rw [h1] at hi; simp [INDEX_NONE] at hi
  · have hki : k = i := by rw [h1] at hi; exact_mod_cast hi
    subst hki
    have hot : Other[k]? = some t := by rw [hsame k (le_refl _)]; exact ht
    rcases GetTagTypeIndex_cases Other TagType with ⟨_, h2⟩ | ⟨k2, g1, ⟨t2, ht2, hst2⟩, g3⟩
    · exact absurd hst (h2 t (List.getElem?_mem hot))
    · rw [g1]
      rcases Nat.lt_trichotomy k2 k with hlt | heq | hgt
      · rw [hsame k2 (by omega)] at ht2
        exact absurd hst2 (h3 k2 hlt t2 ht2)
      · rw [heq]
      · exact absurd hst (g3 k hgt t hot)

/-- C15: `HasKey` and `GetKeyValue` on a tag array pass their range check and consult only
the first tag of the type.  Either `GetTagTypeIndex` returns `INDEX_NONE`, `HasKey` returns
false and `GetKeyValue` the empty text; or it returns a valid index `i`, the two return what
`HasKey` and `GetKeyValue` on the one tag `i` return, and they return the same on every
array that agrees with this one up to index `i`. -/
theorem Tags_queries_first_tag (InTags : List FName) (TagType TagKey : FString) :
    ∃ b v, HasKey_Tags InTags TagType TagKey = some b ∧
      GetKeyValue_Tags InTags TagType TagKey = some v ∧
      ((GetTagTypeIndex InTags TagType = INDEX_NONE ∧ b = false ∧ v = []) ∨
        ∃ i : Nat, GetTagTypeIndex InTags TagType = (i : Int) ∧ i < InTags.length ∧
          ∃ t, InTags[i]? = some t ∧ b = HasKey t TagKey ∧ v = GetKeyValue t TagKey ∧
            ∀ Other : List FName, (∀ j, j ≤ i → Other[j]? = InTags[j]?) →
              HasKey_Tags Other TagType TagKey = some b ∧
              GetKeyValue_Tags Other TagType TagKey = some v) := by
  rcases GetTagTypeIndex_cases InTags TagType with ⟨h1, _⟩ | ⟨k, h1, ⟨t, ht, _⟩, _⟩
  · exact ⟨false, [], by simp [HasKey_Tags, h1], by simp [GetKeyValue_Tags, h1],
      Or.inl ⟨h1, rfl, rfl⟩⟩
  · have hk : k < InTags.length := by
      by_contra hge
      rw [List.getElem?_eq_none (by omega)] at ht
      cases ht
    refine ⟨HasKey t TagKey, GetKeyValue t TagKey, HasKey_Tags_of_index TagKey h1 ht,
      GetKeyValue_Tags_of_index TagKey h1 ht, Or.inr ⟨k, h1, hk, t, ht, rfl, rfl, ?_⟩⟩
    intro Other hsame
    have ho := GetTagTypeIndex_congr h1 hsame
    have hot : Other[k]? = some t := by rw [hsame k (le_refl _)]; exact ht
    exact ⟨HasKey_Tags_of_index TagKey ho hot, GetKeyValue_Tags_of_index TagKey ho hot⟩

/-! ## GetActorsToKeyValuePairs -/

theorem EmplaceActor_fresh (r : TActorMap) (a : AActor) (m : TMap)
    (h : a ∉ r.map Prod.fst) : EmplaceActor r a m = r ++ [(a, m)] := by
  induction r with
  | nil => rfl
  | cons hd r ih =>
    obtain ⟨a0, m0⟩ := hd
    simp only [List.map_cons, List.mem_cons, not_or] at h
    unfold EmplaceActor
    rw [if_neg (fun e => h.1 e.symm), ih h.2]
    rfl

theorem Num_pos_iff (m : TMap) : TMap.Num m > 0 ↔ m ≠ [] := by
  cases m <;> simp [TMap.Num]

theorem foldl_actors (TagType : FString) (World : UWorld) (acc : TActorMap)
    (hd : (acc.map Prod.fst ++ World.map Prod.fst).Nodup) :
    (∀ a m, (a, m) ∈ World.foldl (fun ActorToTagProperties ActorItr =>
          if TMap.Num (GetKeyValuePairs ActorItr.2 TagType) > 0 then
            EmplaceActor ActorToTagProperties ActorItr.1 (GetKeyValuePairs ActorItr.2 TagType)
          else ActorToTagProperties) acc ↔
        (a, m) ∈ acc ∨
          ∃ tags, (a, tags) ∈ World ∧ m = GetKeyValuePairs tags TagType ∧ m ≠ []) ∧
    ((World.foldl (fun ActorToTagProperties ActorItr =>
          if TMap.Num (GetKeyValuePairs ActorItr.2 TagType) > 0 then
            EmplaceActor ActorToTagProperties ActorItr.1 (GetKeyValuePairs ActorItr.2 TagType)
          else ActorToTagProperties) acc).map Prod.fst).Nodup := by
  induction World generalizing acc with
  | nil =>
    simp only [List.map_nil, List.append_nil] at hd
    simp [hd]
  | cons x W ih =>
    obtain ⟨xa, xt⟩ := x
    simp only [List.map_cons] at hd
    have hd' := List.nodup_middle.mp hd
    obtain ⟨hx, hrest⟩ := List.nodup_cons.mp hd'
    simp only [List.mem_append, not_or] at hx
    simp only [List.foldl_cons]
    by_cases hpos : TMap.Num (GetKeyValuePairs xt TagType) > 0
    · rw [if_pos hpos, EmplaceActor_fresh acc xa _ hx.1]
      have hne := (Num_pos_iff _).mp hpos
      obtain ⟨h1, h2⟩ := ih (acc ++ [(xa, GetKeyValuePairs xt TagType)])
        (by simpa using hd)
      refine ⟨fun a m => ?_, h2⟩
      rw [h1 a m]
      simp only [List.mem_append, List.mem_singleton, Prod.mk.injEq, List.mem_cons,
        List.not_mem_nil, or_false]
      constructor
      · rintro ((h | ⟨rfl, rfl⟩) | ⟨tags, ht, hm, hmne⟩)
        · exact Or.inl h
        · exact Or.inr ⟨xt, Or.inl ⟨rfl, rfl⟩, rfl, hne⟩
        · exact Or.inr ⟨tags, Or.inr ht, hm, hmne⟩
      · rintro (h | ⟨tags, (⟨rfl, rfl⟩ | ht), hm, hmne⟩)
        · exact Or.inl (Or.inl h)
        · exact Or.inl (Or.inr ⟨rfl, hm⟩)
        · exact Or.inr ⟨tags, ht, hm, hmne⟩
    · rw [if_neg hpos]
      have he : GetKeyValuePairs xt TagType = [] := by
        by_contra hne; exact hpos ((Num_pos_iff _).mpr hne)
      obtain ⟨h1, h2⟩ := ih acc hrest
      refine ⟨fun a m => ?_, h2⟩
      rw [h1 a m]
      simp only [List.mem_cons, Prod.mk.injEq]
      constructor
      · rintro (h | ⟨tags, ht, hm, hmne⟩)
        · exact Or.inl h
        · exact Or.inr ⟨tags, Or.inr ht, hm, hmne⟩
      · rintro (h | ⟨tags, (⟨rfl, rfl⟩ | ht), hm, hmne⟩)
        · exact Or.inl h
        · exact absurd (hm.trans he) hmne
        · exact Or.inr ⟨tags, ht, hm, hmne⟩

/-- C16: `GetActorsToKeyValuePairs` on a world whose actors are distinct.  A pair of an
actor and a map is in the result exactly when the actor is in the world with some tags, the
map is what `GetKeyValuePairs` returns for these tags, and the map is not empty; and no
actor is the key of two pairs.  So an actor of the world is a key of the result if and only
if its map is not empty, and the result then gives it exactly that map. -/
theorem GetActorsToKeyValuePairs_spec (World : UWorld) (TagType : FString)
    (hd : (World.map Prod.fst).Nodup) :
    (∀ a m, (a, m) ∈ GetActorsToKeyValuePairs World TagType ↔
      ∃ tags, (a, tags) ∈ World ∧ m = GetKeyValuePairs tags TagType ∧ m ≠ []) ∧
    ((GetActorsToKeyValuePairs World TagType).map Prod.fst).Nodup := by
  obtain ⟨h1, h2⟩ := foldl_actors TagType World [] (by simpa using hd)
  refine ⟨fun a m => ?_, h2⟩
  have := h1 a m
  simpa [GetActorsToKeyValuePairs] using this

/-- C16 at a world of three actors, of which the second has no tag of the type and the third
a tag of the type without pairs. -/
theorem GetActorsToKeyValuePairs_spec_witness :
    GetActorsToKeyValuePairs
        [(1, ["T:a,1;".toList]), (2, ["U:b,2;".toList]), (3, ["T:".toList])] "T:".toList =
      [(1, [("a".toList, "1".toList)])] ∧
    ((GetActorsToKeyValuePairs
        [(1, ["T:a,1;".toList]), (2, ["U:b,2;".toList]), (3, ["T:".toList])]
        "T:".toList).map Prod.fst).Nodup :=
  ⟨by decide,
    (GetActorsToKeyValuePairs_spec
      [(1, ["T:a,1;".toList]), (2, ["U:b,2;".toList]), (3, ["T:".toList])] "T:".toList
      (by decide)).2⟩

/-! ## A duplicate key written by AddKeyValuePair -/

/-- C17: `AddKeyValuePair` can write a key a second time, and `GetKeyValuePairs` then keeps
the later value.  The tag `Foo:a,kz;k,1;` holds the keys `a` and `k`.  `GetKeyValue` looks
for `k`, finds it in `kz`, and reads the empty value after it, so `AddKeyValuePair` with key
`k` and value `2` appends and returns true; the tag becomes `Foo:a,kz;k,1;k,2;`, with the
two fragments `k,1;` and `k,2;`.  Parsing it gives one pair with the key `k`, and its value
is `2`. -/
theorem AddKeyValuePair_can_duplicate_key :
    ∃ (P : FString) (M : TMap) (k v1 v2 : FString),
      P ≠ [] ∧ UniqueKeys M ∧ (M.map Prod.fst).Nodup ∧ (∀ p ∈ M, Plain p.1 ∧ Plain p.2) ∧
      GetKeyValuePairs [P ++ Serialize M] P = M ∧
      (k, v1) ∈ M ∧ Plain k ∧ Plain v2 ∧ v1 ≠ v2 ∧
      AddKeyValuePair (P ++ Serialize M) k v2 true =
        (P ++ Serialize (M ++ [(k, v2)]), true) ∧
      (GetKeyValuePairs [P ++ Serialize (M ++ [(k, v2)])] P).filter
        (fun p => KeyEq p.1 k) = [(k, v2)] ∧
      TMap.Find (GetKeyValuePairs [P ++ Serialize (M ++ [(k, v2)])] P) k = some v2 :=
  ⟨"Foo:".toList, [("a".toList, "kz".toList), ("k".toList, "1".toList)], "k".toList,
    "1".toList, "2".toList, by decide⟩

/-! ## AddKeyValuePair of a new key, then GetKeyValue -/

theorem ToUpper_colon (c : Char) : ToUpper c = ToUpper ':' ↔ c = ':' :=
  ToUpper_eq_iff c ':' (by decide) (by decide)

theorem ReadsAt_getElem {k s : FString} {j : Nat} (h : ReadsAt k s j) (i : Nat)
    (hi : i < k.length) : ∃ c, s[j + i]? = some c ∧ ToUpper c = ToUpper k[i] := by
  obtain ⟨_, heq⟩ := h
  have h1 := congrArg (fun l => l[i]?) heq
  simp only [List.getElem?_map, List.getElem?_take, hi, if_true, List.getElem?_drop,
    List.getElem?_eq_getElem hi, Option.map_some'] at h1
  cases hc : s[j + i]? with
  | none => rw [hc] at h1; simp at h1
  | some c =>
    rw [hc] at h1
    simp only [Option.map_some', Option.some.injEq] at h1
    exact ⟨c, rfl, h1⟩

theorem not_ReadsAt_across {t k X : FString} {d : Char}
    (hd : ∀ c, ToUpper c = ToUpper d ↔ c = d) (hlast : t.getLast? = some d) (hk : d ∉ k)
    (hnot : ¬ Reads k t) (j : Nat) (hj : j < t.length) : ¬ ReadsAt k (t ++ X) j := by
  intro hr
  by_cases hfit : j + k.length ≤ t.length
  · exact hnot ⟨j, (ReadsAt_append_left t X k j hfit).mp hr⟩
  · obtain ⟨ys, hys⟩ := List.getLast?_eq_some_iff.mp hlast
    have hlen : t.length = ys.length + 1 := by rw [hys]; simp
    obtain ⟨c, hc, hu⟩ := ReadsAt_getElem hr (t.length - 1 - j) (by omega)
    have hidx : j + (t.length - 1 - j) = ys.length := by omega
    rw [hidx, hys, List.append_assoc, List.getElem?_append_right (le_refl _)] at hc
    simp only [Nat.sub_self, List.singleton_append, List.getElem?_cons_zero,
      Option.some.injEq] at hc
    rw [← hc] at hu
    have := (hd _).mp hu.symm
    exact hk (this ▸ List.getElem_mem _)

/-- C18, as written, fails on the code.  The key `x` is no substring of `Foo:X,1;`, yet
`GetKeyValue` finds `X` and reads the value `1`, so `AddKeyValuePair` replaces that value
and does not append. -/
theorem AddKeyValuePair_add_then_get_fails :
    "Foo:X,1;".toList.getLast? = some ';' ∧ "x".toList ≠ [] ∧ ':' ∉ "x".toList ∧
    ';' ∉ "x".toList ∧ ¬ ("x".toList <:+: "Foo:X,1;".toList) ∧ ';' ∉ "2".toList ∧
    AddKeyValuePair "Foo:X,1;".toList "x".toList "2".toList true =
      ("Foo:X,2;".toList, true) ∧
    "Foo:X,2;".toList ≠ "Foo:X,1;".toList ++ "x".toList ++ [','] ++ "2".toList ++ [';'] := by
  decide

/-- C18, amended: add-then-get for a key that the tag does not read even when letter case
is ignored.  For a tag text `t` whose last character is a colon or a semicolon, a key `k`
that is not empty, holds neither colon nor semicolon and is read nowhere in `t`, and a value
`v` without semicolon, `AddKeyValuePair` returns true, the tag becomes
`t ++ k ++ "," ++ v ++ ";"`, and `GetKeyValue` on the new tag with key `k` returns `v`. -/
theorem AddKeyValuePair_add_then_get (t k v : FString)
    (ht : t.getLast? = some ':' ∨ t.getLast? = some ';') (hk : k ≠ [])
    (hk1 : ':' ∉ k) (hk2 : ';' ∉ k) (hnot : ¬ Reads k t) (hv : ';' ∉ v) :
    AddKeyValuePair t k v true = (t ++ k ++ [','] ++ v ++ [';'], true) ∧
    GetKeyValue (t ++ k ++ [','] ++ v ++ [';']) k = v := by
  have hnone : Stristr t k = none := (Stristr_none_iff _ _).mpr (Or.inr hnot)
  have hget : GetKeyValue t k = [] := GetKeyValue_of_none hnone
  refine ⟨by simp [AddKeyValuePair, hget, IsEmpty], ?_⟩
  have e : t ++ k ++ [','] ++ v ++ [';'] = t ++ k ++ (',' :: (v ++ [';'])) := by simp
  have hp : Stristr (t ++ k ++ (',' :: (v ++ [';']))) k = some t.length := by
    apply Stristr_first hk
    · exact ReadsAt_middle t k _ k rfl
    · intro j hj
      rw [List.append_assoc]
      rcases ht with h | h
      · exact not_ReadsAt_across ToUpper_colon h hk1 hnot j hj
      · exact not_ReadsAt_across ToUpper_semicolon h hk2 hnot j hj
  rw [e, GetKeyValue_of_some hp]
  have hdrop : (t ++ k ++ (',' :: (v ++ [';']))).drop (t.length + k.length + 1) =
      v ++ [';'] := by
    rw [show t ++ k ++ (',' :: (v ++ [';'])) = (t ++ k ++ [',']) ++ (v ++ [';']) by simp]
    exact List.drop_left' (by simp only [List.length_append, List.length_singleton])
  rw [hdrop, Find_of_some (Stristr_delim ToUpper_semicolon v [] hv), Left_natCast,
    List.take_left]

/-- The amended C18 at the tag `Foo:` with key `X` and value `1`. -/
theorem AddKeyValuePair_add_then_get_witness :
    AddKeyValuePair "Foo:".toList "X".toList "1".toList true = ("Foo:X,1;".toList, true) ∧
    GetKeyValue "Foo:X,1;".toList "X".toList = "1".toList :=
  AddKeyValuePair_add_then_get "Foo:".toList "X".toList "1".toList
    (by decide) (by decide) (by decide) (by decide) (not_Reads_of_forall (by decide))
    (by decide)

/-! ## GetKeyValue on a value without semicolon -/

/-- C19, as written, fails on the code.  In `x,1;X` the key `X` occurs first at index 4 and
no semicolon stands at or after index 6; yet `GetKeyValue` finds `x` at index 0 and returns
the value `1`. -/
theorem GetKeyValue_unterminated_not_literal :
    "X".toList <:+: "x,1;X".toList ∧
    ("x,1;X".toList.drop 4).take 1 = "X".toList ∧
    (∀ j, j < 4 → ("x,1;X".toList.drop j).take 1 ≠ "X".toList) ∧
    "x,1;X".toList.drop (4 + 1 + 1) = [] ∧
    GetKeyValue "x,1;X".toList "X".toList = "1".toList := by
  decide

theorem RemoveAtChecked_of_le (s : FString) (n : Nat) (h : n ≤ s.length + 1)
    (hs : s ≠ []) : RemoveAtChecked s 0 (n : Int) = some (s.drop n) := by
  have hn : DataNum s = (s.length : Int) + 1 := by
    simp [DataNum, (IsEmpty_eq_false_iff s).mpr hs, Len]
  have hc : (0 : Int) ≤ (n : Int) ∧ (0 : Int) ≤ 0 ∧ (0 : Int) + (n : Int) ≤ DataNum s := by
    rw [hn]; omega
  unfold RemoveAtChecked
  rw [if_pos hc, RemoveAt_zero]

/-- The `RemoveAt` call of `GetKeyValue` passes its range check on every input, and the
text returned is the one the model `GetKeyValue` gives. -/
theorem GetKeyValueChecked_eq (InTag : FName) (TagKey : FString) :
    GetKeyValueChecked InTag TagKey = some (GetKeyValue InTag TagKey) := by
  cases hs : Stristr InTag TagKey with
  | none => simp [GetKeyValueChecked, GetKeyValue, Find_of_none hs]
  | some p =>
    obtain ⟨hne, ⟨hlen, _⟩, _⟩ := (Stristr_some_iff _ _ _).mp hs
    have hpos : 0 < TagKey.length := List.length_pos.mpr hne
    have htag : InTag ≠ [] := by
      rintro rfl
      simp only [List.length_nil] at hlen
      omega
    have hnone : (p : Int) ≠ INDEX_NONE := by simp [INDEX_NONE]
    have hcast : (p : Int) + Len TagKey + 1 = ((p + TagKey.length + 1 : Nat) : Int) := by
      simp [Len]
    rw [GetKeyValue_of_some hs]
    simp only [GetKeyValueChecked, Find_of_some hs, ne_eq, hnone, not_false_eq_true, if_true,
      hcast, RemoveAtChecked_of_le InTag (p + TagKey.length + 1) (by omega) htag]

/-- C19, amended: with the key looked for up to letter case, `GetKeyValue` is total and
returns the empty text for a value without semicolon.  On every input the `RemoveAt` call
of `GetKeyValue` passes the range check of the character array (`GetKeyValueChecked` is
never `none`) and the text returned is that of `GetKeyValue`.  If the tag's text reads the
key first at index `p` and no semicolon stands at or after index `p + length(key) + 1`, the
result is the empty text, not the remaining text.  For every input the result holds no
semicolon. -/
theorem GetKeyValue_unterminated (InTag : FName) (TagKey : FString) :
    GetKeyValueChecked InTag TagKey = some (GetKeyValue InTag TagKey) ∧
    (∀ p : Nat, ReadsAt TagKey InTag p → (∀ j, j < p → ¬ ReadsAt TagKey InTag j) →
      (∀ j, p + TagKey.length + 1 ≤ j → InTag[j]? ≠ some ';') →
      GetKeyValueChecked InTag TagKey = some []) ∧
    ';' ∉ GetKeyValue InTag TagKey := by
  have hchk := GetKeyValueChecked_eq InTag TagKey
  refine ⟨hchk, ?_, ?_⟩
  · intro p hp hmin hno
    rw [hchk]
    congr 1
    by_cases hk : TagKey = []
    · subst hk; exact GetKeyValue_of_none (Stristr_nil_right _)
    · rw [GetKeyValue_of_some (Stristr_first hk hp hmin)]
      have hnone : Stristr (InTag.drop (p + TagKey.length + 1)) [';'] = none := by
        apply Stristr_delim_none ToUpper_semicolon
        intro hmem
        obtain ⟨j, hj⟩ := List.getElem?_of_mem hmem
        rw [List.getElem?_drop] at hj
        exact hno _ (by omega) hj
      rw [Find_of_none hnone, Left_none]
  · by_cases h : GetKeyValue InTag TagKey = []
    · rw [h]; exact List.not_mem_nil _
    · obtain ⟨_, _, _, _, _, hsemi⟩ := GetKeyValue_shape h
      exact hsemi

/-- The amended C19 where the count removed is largest.  In `Foo:Bar` the key `Bar` ends
the text: 8 characters are removed from the 7 of the text and its terminator, the check
passes and the value is empty.  In `Foo:Bar,Baz` no semicolon follows the key: the value is
empty, not `Baz`. -/
theorem GetKeyValue_unterminated_witness :
    GetKeyValueChecked "Foo:Bar".toList "Bar".toList = some [] ∧
    GetKeyValueChecked "Foo:Bar,Baz".toList "Bar".toList = some [] :=
  ⟨(GetKeyValue_unterminated "Foo:Bar".toList "Bar".toList).2.1 4 (by decide) (by decide)
      (by
        intro j hj
        have h3 : "Bar".toList.length = 3 := by decide
        have h7 : "Foo:Bar".toList.length = 7 := by decide
        rw [h3] at hj
        rw [List.getElem?_eq_none (by omega)]
        simp),
    (GetKeyValue_unterminated "Foo:Bar,Baz".toList "Bar".toList).2.1 4 (by decide)
      (by decide)
      (by
        intro j hj
        have h3 : "Bar".toList.length = 3 := by decide
        have h11 : "Foo:Bar,Baz".toList.length = 11 := by decide
        rw [h3] at hj
        by_cases hlt : j < 11
        · interval_cases j <;> decide
        · rw [List.getElem?_eq_none (by omega)]
          simp)⟩

end UTags
